import Mathlib

/-!
Verification of the slurm accounting aggregation engine (slurm.py).

Shallow embedding conventions:
* Python `float` values are modelled as exact rationals (`ℚ`).
* `datetime.timedelta` values are modelled as their total seconds, a rational;
  `timedelta.max` is the rational `tdMax` below.
* `datetime.datetime` timestamps are modelled as natural numbers
  (seconds on an absolute axis); only comparisons and equality are used.
* Python dicts keyed by strings are association lists `List (String × α)`;
  a failed key lookup (Python `KeyError`) is `none`.
-/

namespace Slurm

/-- Constant `MINUTE = 60.` from slurm.py. -/
def MINUTE : ℚ := 60

/-- Constant `HOUR = 60 * MINUTE` from slurm.py. -/
def HOUR : ℚ := 60 * MINUTE

/-- Constant `DAY = 24 * HOUR` from slurm.py. -/
def DAY : ℚ := 24 * HOUR

/-- Constant `KB = 1024.` from slurm.py. -/
def KB : ℚ := 1024

/-- Constant `MB = 1024 * KB` from slurm.py. -/
def MB : ℚ := 1024 * KB

/-- Constant `EVENT_START = 3` from slurm.py. -/
def EVENT_START : Nat := 3

/-- Constant `EVENT_END = 4` from slurm.py. -/
def EVENT_END : Nat := 4

/-- Total seconds of Python's `datetime.timedelta.max`
(999999999 days, 23:59:59.999999). -/
def tdMax : ℚ := 86400000000000 - 1 / 1000000

/-- Total seconds of Python's `datetime.timedelta.min` (-999999999 days). -/
def tdMin : ℚ := -86399999913600

/-- The `Node` class: name, processors per node, power figures and the
charge modifier, as set in `Node.__init__`. -/
structure Node where
  Name : String
  PPN : Nat
  PowerDown : ℚ
  PowerIdle : ℚ
  PowerPeak : ℚ
  Modifier : ℚ
deriving DecidableEq

/-- The `Partition` class: name, member node list, shared flag and the
charge modifier, as set in `Partition.__init__`. -/
structure Partition where
  Name : String
  Nodes : List String
  Shared : Bool
  Modifier : ℚ
deriving DecidableEq

/-- The `QOS` class: name and charge modifier, as set in `QOS.__init__`. -/
structure QOS where
  Name : String
  Modifier : ℚ
deriving DecidableEq

/-- The `Account` class: the fields set in `Account.__init__` that the
accounting engine reads (`Division` and `Modifier`), plus identity and
description strings. -/
structure Account where
  Name : String
  ChargeStr : String
  Division : String
  PIName : String
  PIID : String
  Modifier : ℚ
deriving DecidableEq

/-- Lookup in a string-keyed map (Python `d[k]`; `none` models `KeyError`). -/
def lookupBy {α : Type} (m : List (String × α)) (k : String) : Option α :=
  (m.find? (fun p => p.1 == k)).map (fun p => p.2)

/-- An assembled `Job` record, with the fields of `Job.Fields` that the
accounting engine reads.  Timestamps are naturals, durations and floats are
rationals (see the module header). -/
structure Job where
  JobID : String
  JobName : String
  User : String
  Group : String
  Cluster : String
  Partition : String
  QOS : String
  Account : String
  State : String
  ExitCode : String
  Division : String
  NodeList : List String
  NNodes : Nat
  AllocCPUS : Nat
  ReqCPUS : Nat
  NSteps : Nat
  Submit : Nat
  Eligible : Nat
  Start : Nat
  End : Nat
  Elapsed : ℚ
  CPUTime : ℚ
  Reserved : ℚ
  SystemCPU : ℚ
  Timelimit : ℚ
  TotalCPU : ℚ
  UserCPU : ℚ
  NodeTime : ℚ
  ServUnits : ℚ
  Charge : ℚ
  EfficiencyT : ℚ
  EfficiencyU : ℚ
  ConsumedEnergy : ℚ
  AveDiskRead : ℚ
  AveDiskWrite : ℚ
  AveRSS : ℚ
  AveVMSize : ℚ
deriving DecidableEq

instance : Inhabited Job :=
  ⟨{ JobID := "", JobName := "", User := "", Group := "", Cluster := "",
     Partition := "", QOS := "", Account := "", State := "", ExitCode := "",
     Division := "", NodeList := [], NNodes := 0, AllocCPUS := 0,
     ReqCPUS := 0, NSteps := 0, Submit := 0, Eligible := 0, Start := 0,
     End := 0, Elapsed := 0, CPUTime := 0, Reserved := 0, SystemCPU := 0,
     Timelimit := 0, TotalCPU := 0, UserCPU := 0, NodeTime := 0,
     ServUnits := 0, Charge := 0, EfficiencyT := 0, EfficiencyU := 0,
     ConsumedEnergy := 0, AveDiskRead := 0, AveDiskWrite := 0, AveRSS := 0,
     AveVMSize := 0 }⟩

/-! ## Range expansion (`exp_range`) -/

/-- Python `str.split(sep)` on a character list: splits at every
occurrence of `sep`, keeping empty pieces (`''.split(sep) == ['']`). -/
def pySplit (sep : Char) : List Char → List (List Char)
  | [] => [[]]
  | c :: rest =>
    match pySplit sep rest with
    | [] => [[]]
    | cur :: others =>
      if c = sep then [] :: cur :: others else (c :: cur) :: others

/-- Python whitespace as recognized by `str.strip()`. -/
def isSpaceChar (c : Char) : Bool :=
  c = ' ' || c = '\t' || c = '\n' || c = '\r' || c = '\x0b' || c = '\x0c'

/-- Python `str.strip()` on a character list. -/
def pyStrip (l : List Char) : List Char :=
  ((l.dropWhile isSpaceChar).reverse.dropWhile isSpaceChar).reverse

/-- Accumulating decimal parse of a digit list (`none` on a non-digit). -/
def parseDigits : Nat → List Char → Option Nat
  | acc, [] => some acc
  | acc, c :: rest =>
    if '0' ≤ c ∧ c ≤ '9' then
      parseDigits (acc * 10 + (c.toNat - 48)) rest
    else none

/-- Python `int(y.strip())` for the nonnegative integers appearing in node
range strings; `none` models the `ValueError` that aborts `exp_range`. -/
def parseNum (s : String) : Option Nat :=
  match pyStrip s.data with
  | [] => none
  | l => parseDigits 0 l

/-- Processes one comma part of `exp_range` after its `-` split `x`:
takes `int(x[0])` and `int(x[-1])` as the bounds, swapped into ascending
order when given in reverse, and records the stripped printed length of
every component for the width computation. -/
def processPart (x : List String) : Option (Nat × Nat × List Nat) := do
  let a ← parseNum (x.headD "")
  let b ← parseNum (x.getLastD "")
  let bounds := if a < b then (a, b) else (b, a)
  pure (bounds.1, bounds.2, x.map (fun y => (pyStrip y.data).length))

/-- The expanded integer collection of `exp_range` (`result.update(...)`):
all integers covered by the sub-ranges, with duplicates. -/
def tripInts (trips : List (Nat × Nat × List Nat)) : List Nat :=
  trips.foldl
    (fun acc t => acc ++ (List.range (t.2.1 + 1 - t.1)).map (fun i => t.1 + i))
    []

/-- The `strlen` list of `exp_range`: the stripped printed lengths of all
range components. -/
def tripStrlens (trips : List (Nat × Nat × List Nat)) : List Nat :=
  trips.foldl (fun acc t => acc ++ t.2.2) []

/-- The `maxlen` computation of `exp_range`: zero when the component
widths differ, otherwise their maximum. -/
def tripMaxlen (trips : List (Nat × Nat × List Nat)) : Nat :=
  if 1 < (tripStrlens trips).dedup.length then 0
  else (tripStrlens trips).foldl max 0

/-- The integer set as iterated by `exp_range`'s final comprehension,
in ascending duplicate-free order. -/
def intsAscending (ints : List Nat) : List Nat :=
  (List.range (ints.foldl max 0 + 1)).filter (fun i => ints.contains i)

/-- `'%0*d' % (maxlen, i)`: decimal form of `i` left-padded with zeros to
width `maxlen`. -/
def padNum (maxlen : Nat) (i : Nat) : String :=
  let s := toString i
  if maxlen ≤ s.length then s
  else String.mk (List.replicate (maxlen - s.length) '0') ++ s

/-- Core of `exp_range` on the split comma parts (each further split on
`-`): the expanded integer set formatted at the common width. -/
def expRangeSplit (parts : List (List String)) : Option (List String) := do
  let trips ← parts.mapM processPart
  pure ((intsAscending (tripInts trips)).map (padNum (tripMaxlen trips)))

/-- `exp_range`: expands a range string such as `"01-02"` to a sequence of
zero-padded numbers; the result is the expanded set in ascending order.
`none` models the `ValueError` raised on a malformed bound. -/
def exp_range (rng : String) : Option (List String) :=
  expRangeSplit
    ((pySplit ',' rng.data).map (fun p => (pySplit '-' p).map String.mk))

/-! ## CPU list expansion (`exp_cpulist`) -/

/-- Contribution of one node in the dedicated branch of `exp_cpulist`:
its configured `PPN` copies of its name, or nothing when the node is
undefined (the `KeyError` handler skips it). -/
def expNodeDed (nodes_conf : List (String × Node)) (node : String) :
    List String :=
  match lookupBy nodes_conf node with
  | some n => List.replicate n.PPN n.Name
  | none => []

/-- Contribution of one node in the evenly-distributed shared branch of
`exp_cpulist`: `ppn = AllocCPUS / NNodes` copies of its name, or nothing
when the node is undefined. -/
def expNodeEven (nodes_conf : List (String × Node)) (ppn : Nat)
    (node : String) : List String :=
  match lookupBy nodes_conf node with
  | some n => List.replicate ppn n.Name
  | none => []

/-- Contribution of one node in one cyclic pass of `exp_cpulist`: one copy
of its name, or nothing when the node is undefined. -/
def expNodeCyc (nodes_conf : List (String × Node)) (node : String) :
    List String :=
  match lookupBy nodes_conf node with
  | some n => [n.Name]
  | none => []

/-- One full pass of the inner `for node in job['NodeList']` loop of the
cyclic branch of `exp_cpulist`: `cpus` is incremented for every node
(`cpus += 1` runs before the lookup), while only defined nodes extend the
CPU list (an undefined node raises `KeyError`, caught after the
increment). -/
def cyclicPass (nodes_conf : List (String × Node)) (nodelist : List String)
    (st : Nat × List String) : Nat × List String :=
  nodelist.foldl
    (fun st node => (st.1 + 1, st.2 ++ expNodeCyc nodes_conf node))
    st

/-- The `while cpus < job['AllocCPUS']` loop of the cyclic branch.  The
`fuel` argument only totalizes the recursion: with a non-empty node list
every pass increases `cpus`, so fuel `alloc + 1` is never exhausted (with
an empty node list and positive `alloc` the Python loop never
terminates). -/
def cyclicLoop (nodes_conf : List (String × Node)) (nodelist : List String)
    (alloc : Nat) : Nat → Nat → List String → List String
  | 0, _, acc => acc
  | fuel + 1, cpus, acc =>
    if cpus < alloc then
      let st := cyclicPass nodes_conf nodelist (cpus, acc)
      cyclicLoop nodes_conf nodelist alloc fuel st.1 st.2
    else acc

/-- `exp_cpulist(job, nodes_conf, shared)`: expands a job's node list to
the list of node names of the CPUs it ran on.  Dedicated partitions give
each node its configured `PPN` CPUs; shared partitions distribute
`AllocCPUS` evenly when divisible by `NNodes` and cyclically otherwise.
Undefined nodes raise `KeyError` inside the loops and are skipped. -/
def exp_cpulist (job : Job) (nodes_conf : List (String × Node))
    (shared : Bool) : List String :=
  if !shared then
    job.NodeList.foldl (fun acc node => acc ++ expNodeDed nodes_conf node) []
  else if job.NNodes ≠ 0 then
    if job.AllocCPUS % job.NNodes = 0 then
      let ppn := job.AllocCPUS / job.NNodes
      job.NodeList.foldl
        (fun acc node => acc ++ expNodeEven nodes_conf ppn node) []
    else
      cyclicLoop nodes_conf job.NodeList job.AllocCPUS (job.AllocCPUS + 1) 0 []
  else []

/-! ## Derived metrics of `Job.PopData` (parent-step branch) -/

/-- The `try: cpulist = exp_cpulist(...) except KeyError` block of
`Job.PopData`: an undefined partition yields the empty CPU list. -/
def jobCPUList (job : Job) (parts_conf : List (String × Partition))
    (nodes_conf : List (String × Node)) : List String :=
  match lookupBy parts_conf job.Partition with
  | some p => exp_cpulist job nodes_conf p.Shared
  | none => []

/-- The `NodeTime`/`ServUnits` try-block of `Job.PopData`: both values are
computed from the CPU list; if some CPU-list entry is missing from
`nodes_conf` the `ServUnits` sum raises `KeyError` and the handler resets
both to the zero duration. -/
def popNodeTimeServUnits (job : Job) (nodes_conf : List (String × Node))
    (cpulist : List String) : ℚ × ℚ :=
  if cpulist.all (fun node => (lookupBy nodes_conf node).isSome) then
    (job.Elapsed * cpulist.length,
     job.Elapsed *
       (cpulist.map
         (fun node => ((lookupBy nodes_conf node).map Node.Modifier).getD 0)).sum)
  else (0, 0)

/-- The `Charge` try-block of `Job.PopData`: service units in hours times
the partition, QOS and account modifiers; `KeyError` on any of the three
lookups yields charge 0. -/
def popCharge (job : Job) (servUnits : ℚ)
    (parts_conf : List (String × Partition)) (qoss_conf : List (String × QOS))
    (accts_conf : List (String × Account)) : ℚ :=
  match lookupBy parts_conf job.Partition, lookupBy qoss_conf job.QOS,
      lookupBy accts_conf job.Account with
  | some p, some q, some a =>
    servUnits / HOUR * p.Modifier * q.Modifier * a.Modifier
  | _, _, _ => 0

/-- The `Division` try-block of `Job.PopData`. -/
def popDivision (job : Job) (accts_conf : List (String × Account)) : String :=
  match lookupBy accts_conf job.Account with
  | some a => a.Division
  | none => "UNKNOWN"

/-- The derived-metric computation of the parent-step branch of
`Job.PopData` (`self['JobID'] == step['JobID']`): CPU list, division,
node time, service units, charge, efficiencies and consumed energy.
Divisions by a zero duration raise `ZeroDivisionError` and fall back
to 0.  `ConsumedEnergy` reads each CPU-list node from `nodes_conf`; a
missing entry is modelled as contributing 0 (in Python the entries come
from the same map, so the lookup succeeds). -/
def PopDataDerived (job : Job) (parts_conf : List (String × Partition))
    (qoss_conf : List (String × QOS)) (nodes_conf : List (String × Node))
    (accts_conf : List (String × Account)) : Job :=
  let cpulist := jobCPUList job parts_conf nodes_conf
  let nts := popNodeTimeServUnits job nodes_conf cpulist
  let effT := if nts.1 = 0 then 0 else job.TotalCPU / nts.1
  let effU := if job.TotalCPU = 0 then 0 else job.UserCPU / job.TotalCPU
  { job with
    NSteps := 0
    Division := popDivision job accts_conf
    NodeTime := nts.1
    ServUnits := nts.2
    Charge := popCharge job nts.2 parts_conf qoss_conf accts_conf
    EfficiencyT := effT
    EfficiencyU := effU
    ConsumedEnergy :=
      (cpulist.map
        (fun node =>
          ((lookupBy nodes_conf node).map
            (fun n => (n.PowerPeak - n.PowerIdle) / (n.PPN : ℚ) * effT)).getD 0)).sum }

/-! ## Cluster and `Cluster.PurgeJobs` -/

/-- The parts of the `Cluster` config object that `PurgeJobs` reads: the
four topology maps, the accounting window `[Start, End]` and the job
list. -/
structure Cluster where
  Partitions : List (String × Partition)
  QOSs : List (String × QOS)
  Nodes : List (String × Node)
  Accounts : List (String × Account)
  Start : Nat
  End : Nat
  Jobs : List Job

/-- The per-job retention test of `Cluster.PurgeJobs`, the negation of its
`if`/`elif` removal chain: partition defined, account defined, node list a
subset of the node map's keys, and end time inside `[Start, End]`. -/
def jobKeep (c : Cluster) (job : Job) : Bool :=
  (lookupBy c.Partitions job.Partition).isSome &&
  (lookupBy c.Accounts job.Account).isSome &&
  job.NodeList.all (fun node => (lookupBy c.Nodes node).isSome) &&
  (c.Start ≤ job.End && job.End ≤ c.End)

/-- `Cluster.PurgeJobs`: removes every job failing `jobKeep` from the job
list.  The Python code iterates the list in reverse and calls
`list.remove` on each failing job; `remove` matches on object identity
(`Job` defines no `__eq__`) and the jobs are distinct objects, so the net
effect is exactly this filter. -/
def PurgeJobs (c : Cluster) : List Job :=
  c.Jobs.filter (fun job => jobKeep c job)

/-! ## `JobStats.CollectStats` -/

/-- One group-value accumulator of `JobStats.CollectStats`, holding the raw
(pre-normalization) sums of every entry of `JobStats.Resources` that is
stored during collection (`SUPer`, `NTPer`, `CTPer`, `EfficiencyT` and
`EfficiencyU` are only created by `NormStats`). -/
structure RawAcc where
  NumJobs : Nat
  Charge : ℚ
  ServUnits : ℚ
  NodeTime : ℚ
  CPUTime : ℚ
  TotalCPU : ℚ
  SystemCPU : ℚ
  UserCPU : ℚ
  Timelimit : ℚ
  Elapsed : ℚ
  Reserved : ℚ
  ReqCPUS : ℚ
  AllocCPUS : ℚ
  AveDiskRead : ℚ
  AveDiskWrite : ℚ
  AveRSS : ℚ
  AveVMSize : ℚ
  NSteps : ℚ
  JobID : List String
  JobIndex : List Nat
deriving DecidableEq

/-- Duration accumulation in `CollectStats`: `acc += job[res]` with
`OverflowError` (a result outside the representable `timedelta` range)
caught and replaced by `timedelta.max`. -/
def tdAddClamp (a b : ℚ) : ℚ :=
  if tdMax < a + b ∨ a + b < tdMin then tdMax else a + b

/-- First-seen initialisation of a group-value accumulator in
`CollectStats` (`NumJobs = 1`, singleton id and index lists, all other
resources seeded from the job). -/
def accInit (index : Nat) (job : Job) : RawAcc :=
  { NumJobs := 1
    Charge := job.Charge
    ServUnits := job.ServUnits
    NodeTime := job.NodeTime
    CPUTime := job.CPUTime
    TotalCPU := job.TotalCPU
    SystemCPU := job.SystemCPU
    UserCPU := job.UserCPU
    Timelimit := job.Timelimit
    Elapsed := job.Elapsed
    Reserved := job.Reserved
    ReqCPUS := (job.ReqCPUS : ℚ)
    AllocCPUS := (job.AllocCPUS : ℚ)
    AveDiskRead := job.AveDiskRead
    AveDiskWrite := job.AveDiskWrite
    AveRSS := job.AveRSS
    AveVMSize := job.AveVMSize
    NSteps := (job.NSteps : ℚ)
    JobID := [job.JobID]
    JobIndex := [index] }

/-- Accumulation of one further job into an existing group-value
accumulator in `CollectStats`.  The eight `timedelta` resources are summed
with the `OverflowError` clamp; `ServUnits` (also a `timedelta` in the
job record) is summed by the plain `else` branch, where an overflow would
propagate uncaught in Python. -/
def accAdd (a : RawAcc) (index : Nat) (job : Job) : RawAcc :=
  { NumJobs := a.NumJobs + 1
    Charge := a.Charge + job.Charge
    ServUnits := a.ServUnits + job.ServUnits
    NodeTime := tdAddClamp a.NodeTime job.NodeTime
    CPUTime := tdAddClamp a.CPUTime job.CPUTime
    TotalCPU := tdAddClamp a.TotalCPU job.TotalCPU
    SystemCPU := tdAddClamp a.SystemCPU job.SystemCPU
    UserCPU := tdAddClamp a.UserCPU job.UserCPU
    Timelimit := tdAddClamp a.Timelimit job.Timelimit
    Elapsed := tdAddClamp a.Elapsed job.Elapsed
    Reserved := tdAddClamp a.Reserved job.Reserved
    ReqCPUS := a.ReqCPUS + (job.ReqCPUS : ℚ)
    AllocCPUS := a.AllocCPUS + (job.AllocCPUS : ℚ)
    AveDiskRead := a.AveDiskRead + job.AveDiskRead
    AveDiskWrite := a.AveDiskWrite + job.AveDiskWrite
    AveRSS := a.AveRSS + job.AveRSS
    AveVMSize := a.AveVMSize + job.AveVMSize
    NSteps := a.NSteps + (job.NSteps : ℚ)
    JobID := a.JobID ++ [job.JobID]
    JobIndex := a.JobIndex ++ [index] }

/-- Dict update for one group map: create the accumulator on first sight
of a group value, otherwise fold the job into the existing entry. -/
def updateAcc : List (String × RawAcc) → String → Nat → Job →
    List (String × RawAcc)
  | [], k, index, job => [(k, accInit index job)]
  | p :: rest, k, index, job =>
    if p.1 = k then (p.1, accAdd p.2 index job) :: rest
    else p :: updateAcc rest k index job

/-- The filter test of `CollectStats`: a job matches when, for every
filtered grouping key, the job's value for that key is in the key's
allow-list. -/
def jobMatches (filt : List ((Job → String) × List String)) (job : Job) :
    Bool :=
  filt.all (fun f => f.2.contains (f.1 job))

/-- The `for index, job in enumerate(jobs)` loop of `CollectStats` for one
grouping key `kf`, threading the running index. -/
def collectGo (kf : Job → String)
    (filt : List ((Job → String) × List String)) :
    Nat → List Job → List (String × RawAcc) → List (String × RawAcc)
  | _, [], m => m
  | n, job :: rest, m =>
    collectGo kf filt (n + 1) rest
      (if jobMatches filt job then updateAcc m (kf job) n job else m)

/-- `JobStats.CollectStats` restricted to one grouping key `kf` (the code
runs the same accumulation for every base and derived key): builds the
group-value → accumulator map over the filtered jobs. -/
def CollectStats (kf : Job → String)
    (filt : List ((Job → String) × List String)) (jobs : List Job) :
    List (String × RawAcc) :=
  collectGo kf filt 0 jobs []

/-! ## `JobStats.NormStats` -/

/-- One group-value entry after `NormStats`: totals in hours, means, the
percentage and efficiency fields, and the pass-through fields. -/
structure NormAcc where
  NumJobs : Nat
  Charge : ℚ
  ServUnits : ℚ
  SUPer : ℚ
  NodeTime : ℚ
  NTPer : ℚ
  CPUTime : ℚ
  CTPer : ℚ
  TotalCPU : ℚ
  SystemCPU : ℚ
  UserCPU : ℚ
  EfficiencyT : ℚ
  EfficiencyU : ℚ
  Timelimit : ℚ
  Elapsed : ℚ
  Reserved : ℚ
  ReqCPUS : ℚ
  AllocCPUS : ℚ
  AveDiskRead : ℚ
  AveDiskWrite : ℚ
  AveRSS : ℚ
  AveVMSize : ℚ
  NSteps : ℚ
  JobID : List String
  JobIndex : List Nat
deriving DecidableEq

/-- A percentage field of `NormStats`: ratio to the supplied global
denominator times 100; on `ZeroDivisionError` (zero global denominator)
the ratio against the recomputed per-group-key sum, and 0 when that is
zero as well. -/
def normPct (groupVal globalDen localSum : ℚ) : ℚ :=
  if globalDen ≠ 0 then groupVal / globalDen * 100
  else if localSum ≠ 0 then groupVal / localSum * 100
  else 0

/-- A duration total of `NormStats` (`ServUnits`, `NodeTime`, `CPUTime`):
converted to hours unless the accumulator equals `timedelta.max`, which
maps to the sentinel 999999.99. -/
def normDurTotal (x : ℚ) : ℚ :=
  if x ≠ tdMax then x / HOUR else 999999.99

/-- A duration mean of `NormStats` (`TotalCPU`, `SystemCPU`, `UserCPU`,
`Timelimit`, `Elapsed`, `Reserved`): hours divided by the group's job
count, with the same `timedelta.max` sentinel. -/
def normDurMean (x : ℚ) (numJobs : Nat) : ℚ :=
  if x ≠ tdMax then x / HOUR / (numJobs : ℚ) else 999999.99

/-- Sum of a raw resource over all group values of one grouping key (the
`timesum` recomputation of the percentage fallback). -/
def sumRes (m : List (String × RawAcc)) (f : RawAcc → ℚ) : ℚ :=
  (m.map (fun p => f p.2)).sum

/-- Normalization of one group-value accumulator, following the per-field
branches of `NormStats`: percentage fields with the global/local fallback,
efficiencies recomputed from the group's summed numerator and denominator,
duration totals and means with the `timedelta.max` sentinel, disk/memory
means rescaled to megabytes, `Charge`/`NumJobs`/`JobIndex` passed through,
and the id list sorted ascending. -/
def normAcc (m : List (String × RawAcc)) (ServUnits CPUTime : ℚ)
    (a : RawAcc) : NormAcc :=
  { NumJobs := a.NumJobs
    Charge := a.Charge
    SUPer := normPct a.ServUnits ServUnits (sumRes m RawAcc.ServUnits)
    NTPer := normPct a.NodeTime CPUTime (sumRes m RawAcc.NodeTime)
    CTPer := normPct a.CPUTime CPUTime (sumRes m RawAcc.CPUTime)
    EfficiencyT := if a.NodeTime ≠ 0 then a.TotalCPU / a.NodeTime * 100 else 0
    EfficiencyU := if a.TotalCPU ≠ 0 then a.UserCPU / a.TotalCPU * 100 else 0
    ServUnits := normDurTotal a.ServUnits
    NodeTime := normDurTotal a.NodeTime
    CPUTime := normDurTotal a.CPUTime
    TotalCPU := normDurMean a.TotalCPU a.NumJobs
    SystemCPU := normDurMean a.SystemCPU a.NumJobs
    UserCPU := normDurMean a.UserCPU a.NumJobs
    Timelimit := normDurMean a.Timelimit a.NumJobs
    Elapsed := normDurMean a.Elapsed a.NumJobs
    Reserved := normDurMean a.Reserved a.NumJobs
    ReqCPUS := a.ReqCPUS / (a.NumJobs : ℚ)
    AllocCPUS := a.AllocCPUS / (a.NumJobs : ℚ)
    AveDiskRead := a.AveDiskRead / (MB * (a.NumJobs : ℚ))
    AveDiskWrite := a.AveDiskWrite / (MB * (a.NumJobs : ℚ))
    AveRSS := a.AveRSS / (MB * (a.NumJobs : ℚ))
    AveVMSize := a.AveVMSize / (MB * (a.NumJobs : ℚ))
    NSteps := a.NSteps / (a.NumJobs : ℚ)
    JobID := a.JobID.insertionSort (fun x y => x ≤ y)
    JobIndex := a.JobIndex }

/-- `JobStats.NormStats` for one grouping key: normalizes every
group-value accumulator of the map. -/
def NormStats (m : List (String × RawAcc)) (ServUnits CPUTime : ℚ) :
    List (String × NormAcc) :=
  m.map (fun p => (p.1, normAcc m ServUnits CPUTime p.2))

/-! ## `JobStats.CollectEvents` and `JobStats.NormEvents` -/

/-- A raw timeline event as appended by `CollectEvents`: timestamp, event
kind (`EVENT_START` or `EVENT_END`) and the job's index in the job
list. -/
structure Ev where
  Timestamp : Nat
  Event : Nat
  Index : Nat
deriving DecidableEq

/-- The sort order of `CollectEvents`: ascending by the key tuple
`(Timestamp, Event)`, so at equal timestamps the numerically smaller
event kind (`EVENT_START = 3 < 4 = EVENT_END`) comes first. -/
def evLE (a b : Ev) : Prop :=
  a.Timestamp < b.Timestamp ∨ (a.Timestamp = b.Timestamp ∧ a.Event ≤ b.Event)

instance : DecidableRel evLE := fun a b =>
  inferInstanceAs (Decidable (a.Timestamp < b.Timestamp ∨
    (a.Timestamp = b.Timestamp ∧ a.Event ≤ b.Event)))

instance : IsTotal Ev evLE := by
  constructor
  intro a b
  rcases Nat.lt_trichotomy a.Timestamp b.Timestamp with h | h | h
  · exact Or.inl (Or.inl h)
  · rcases Nat.le_total a.Event b.Event with h' | h'
    · exact Or.inl (Or.inr ⟨h, h'⟩)
    · exact Or.inr (Or.inr ⟨h.symm, h'⟩)
  · exact Or.inr (Or.inl h)

instance : IsTrans Ev evLE := by
  constructor
  intro a b c hab hbc
  rcases hab with h | ⟨h, h'⟩ <;> rcases hbc with g | ⟨g, g'⟩
  · exact Or.inl (Nat.lt_trans h g)
  · exact Or.inl (g ▸ h)
  · exact Or.inl (h ▸ g)
  · exact Or.inr ⟨h.trans g, h'.trans g'⟩

/-- The event-building loop of `CollectEvents`: one `START` and one `END`
event for each job whose start is strictly before its end (others are
skipped with a debug note), with `Index` the job's position in the job
list. -/
def collectRaw : Nat → List Job → List Ev
  | _, [] => []
  | n, job :: rest =>
    (if job.Start < job.End then
      [⟨job.Start, EVENT_START, n⟩, ⟨job.End, EVENT_END, n⟩]
    else []) ++ collectRaw (n + 1) rest

/-- `JobStats.CollectEvents`: appends the per-job events to the passed
event list and sorts by `(Timestamp, Event)` (Python's stable sort;
`List.insertionSort` is also stable). -/
def CollectEvents (events : List Ev) (jobs : List Job) : List Ev :=
  (events ++ collectRaw 0 jobs).insertionSort evLE

/-- A normalized timeline event of `NormEvents`: the raw event plus the
running totals (`Indices` of active jobs, job count, allocated CPUs,
efficiency-weighted CPUs, power and distinct node count). -/
structure NEv where
  Timestamp : Nat
  Event : Nat
  Index : Nat
  Indices : List Nat
  NJobs : Int
  NCPUs : Int
  ECPUs : ℚ
  Power : ℚ
  NNodes : Nat
deriving DecidableEq

/-- Distinct-node count of one normalized event: size of the union of the
node lists of all currently active jobs, recomputed from scratch. -/
def countNN (jobs : List Job) (indices : List Nat) : Nat :=
  ((indices.map (fun i => (jobs.getD i default).NodeList)).flatten).dedup.length

/-- One iteration of the forward pass of `NormEvents`.  `prev` is the
previous normalized event (`none` for `i = 0`: the `START` branch then
initializes the totals from the job alone, exactly as adding to an empty
state; a leading `END` event would make Python index `events[-1]` and
raise, which cannot happen since the first sorted event of a collected
list is a `START` — see the invariants below).  An event kind other than
`START`/`END` is only warned about in Python and its running totals are
left unset; it is modelled with empty totals. -/
def normStep (jobs : List Job) (prev : Option NEv) (e : Ev) : NEv :=
  let job := jobs.getD e.Index default
  if e.Event = EVENT_START then
    match prev with
    | some p =>
      { Timestamp := e.Timestamp, Event := e.Event, Index := e.Index
        Indices := p.Indices ++ [e.Index]
        NJobs := p.NJobs + 1
        NCPUs := p.NCPUs + (job.AllocCPUS : Int)
        ECPUs := p.ECPUs + (job.AllocCPUS : ℚ) * job.EfficiencyT
        Power := p.Power + job.ConsumedEnergy
        NNodes := countNN jobs (p.Indices ++ [e.Index]) }
    | none =>
      { Timestamp := e.Timestamp, Event := e.Event, Index := e.Index
        Indices := [e.Index]
        NJobs := 1
        NCPUs := (job.AllocCPUS : Int)
        ECPUs := (job.AllocCPUS : ℚ) * job.EfficiencyT
        Power := job.ConsumedEnergy
        NNodes := countNN jobs [e.Index] }
  else if e.Event = EVENT_END then
    let p := prev.getD
      ⟨e.Timestamp, e.Event, e.Index, [], 0, 0, 0, 0, 0⟩
    { Timestamp := e.Timestamp, Event := e.Event, Index := e.Index
      Indices := p.Indices.erase e.Index
      NJobs := p.NJobs - 1
      NCPUs := p.NCPUs - (job.AllocCPUS : Int)
      ECPUs := p.ECPUs - (job.AllocCPUS : ℚ) * job.EfficiencyT
      Power := p.Power - job.ConsumedEnergy
      NNodes := countNN jobs (p.Indices.erase e.Index) }
  else
    { Timestamp := e.Timestamp, Event := e.Event, Index := e.Index
      Indices := [], NJobs := 0, NCPUs := 0, ECPUs := 0, Power := 0
      NNodes := 0 }

/-- The forward pass of `NormEvents` over the sorted event list, threading
the previous normalized event. -/
def normGo (jobs : List Job) : Option NEv → List Ev → List NEv
  | _, [] => []
  | prev, e :: rest =>
    let ne := normStep jobs prev e
    ne :: normGo jobs (some ne) rest

/-- `JobStats.NormEvents`: enriches every event of the sorted list with
the running totals of the forward pass. -/
def NormEvents (jobs : List Job) (events : List Ev) : List NEv :=
  normGo jobs none events

/-- The running job count in effect at time `t`: the `NJobs` total of the
last normalized event with timestamp at most `t` (0 before the first
event). -/
def NJobsAt (nes : List NEv) (t : Nat) : Int :=
  match (nes.filter (fun ne => ne.Timestamp ≤ t)).getLast? with
  | some ne => ne.NJobs
  | none => 0

/-- Sum of the `NumJobs` accumulators over all group values of one
grouping key. -/
def sumNumJobs (m : List (String × RawAcc)) : Nat :=
  (m.map (fun p => p.2.NumJobs)).sum

/-- Test for the `START` event of job index `j`. -/
def isStartOf (j : Nat) (e : Ev) : Bool :=
  e.Event == EVENT_START && e.Index == j

/-- Test for the `END` event of job index `j`. -/
def isEndOf (j : Nat) (e : Ev) : Bool :=
  e.Event == EVENT_END && e.Index == j

/-- Test for any `START` event. -/
def isStartEv (e : Ev) : Bool :=
  e.Event == EVENT_START

/-- Test for any `END` event. -/
def isEndEv (e : Ev) : Bool :=
  e.Event == EVENT_END

/-- Concrete job used by the C6 and C9 witnesses: interval `[0, 10)`. -/
def jobA : Job :=
  { (default : Job) with
    JobID := "A"
    Start := 0
    End := 10 }

/-- Concrete job used by the C6 witness: interval `[2, 8)`, fully inside
`jobA`'s. -/
def jobB : Job :=
  { (default : Job) with
    JobID := "B"
    Start := 2
    End := 8 }

/-- The `NJobs` running total carried by the previous normalized event of
the forward pass (0 before the first event). -/
def njobsOf : Option NEv → Int
  | none => 0
  | some p => p.NJobs

/-- The active-index list carried by the previous normalized event of the
forward pass (empty before the first event). -/
def indicesOf : Option NEv → List Nat
  | none => []
  | some p => p.Indices

/-- A concrete job used by the C3 witness. -/
def jobC3 : Job :=
  { (default : Job) with
    ServUnits := 7200
    NodeTime := 3600
    CPUTime := 1800 }

/-- A concrete one-entry stats map used by the C3 witness. -/
def mC3 : List (String × RawAcc) := [("u", accInit 0 jobC3)]

/-- A concrete job used by the C8 witness: duration accumulators pinned at
`timedelta.max`. -/
def jobC8 : Job :=
  { (default : Job) with
    ServUnits := tdMax
    TotalCPU := tdMax }

/-- Concrete node map used by the C1 theorems: one node, `PPN = 1`,
charge modifier 1. -/
def nconfC1 : List (String × Node) := [("n1", ⟨"n1", 1, 0, 0, 0, 1⟩)]

/-- Concrete partition map used by the C1 theorems: one dedicated
(non-shared) partition of modifier 1. -/
def pconfC1 : List (String × Partition) := [("p", ⟨"p", ["n1"], false, 1⟩)]

/-- Concrete QOS map used by the C1 theorems: modifier 1. -/
def qconfC1 : List (String × QOS) := [("q", ⟨"q", 1⟩)]

/-- Concrete account map used by the C1 theorems: modifier 1. -/
def aconfC1 : List (String × Account) :=
  [("acct", ⟨"acct", "", "div", "", "", 1⟩)]

/-- Concrete job used by the C1 theorems: one node, 1 CPU, one hour of
elapsed time. -/
def jobC1 : Job :=
  { (default : Job) with
    Partition := "p"
    QOS := "q"
    Account := "acct"
    NodeList := ["n1"]
    NNodes := 1
    AllocCPUS := 1
    Elapsed := 3600 }

/-- Concrete node map used by the C2 counterexample: two defined nodes. -/
def nodesC2 : List (String × Node) :=
  [("a", ⟨"a", 1, 0, 0, 0, 1⟩), ("b", ⟨"b", 1, 0, 0, 0, 1⟩)]

/-- Concrete job used by the C2 counterexample: two nodes and three
allocated CPUs, so the cyclic layout applies. -/
def jobC2 : Job :=
  { (default : Job) with
    NodeList := ["a", "b"]
    NNodes := 2
    AllocCPUS := 3 }

/-- Concrete job used by the C4 witness: satisfies every purge
condition of the cluster below. -/
def jobGoodC4 : Job :=
  { (default : Job) with
    JobID := "good"
    Partition := "p"
    Account := "acct"
    NodeList := ["n1"]
    End := 50 }

/-- Concrete job used by the C4 witness: its partition is undefined, so
the purge removes it. -/
def jobBadC4 : Job :=
  { (default : Job) with
    JobID := "bad"
    Partition := "x"
    Account := "acct"
    NodeList := ["n1"]
    End := 50 }

/-- Concrete cluster used by the C4 witness. -/
def clusterC4 : Cluster :=
  { Partitions := pconfC1
    QOSs := qconfC1
    Nodes := nconfC1
    Accounts := aconfC1
    Start := 0
    End := 100
    Jobs := [jobGoodC4, jobBadC4] }

/-! ## Lemmas: `CollectStats` accumulator invariants (C5, C10) -/

lemma sumNumJobs_updateAcc (k : String) (i : Nat) (job : Job) :
    ∀ m : List (String × RawAcc),
      sumNumJobs (updateAcc m k i job) = sumNumJobs m + 1 := by
  intro m
  induction m with
  | nil => simp [updateAcc, sumNumJobs, accInit]
  | cons p rest ih =>
    by_cases h : p.1 = k
    · simp [updateAcc, h, sumNumJobs, accAdd]
      omega
    · simp only [updateAcc, if_neg h, sumNumJobs, List.map_cons, List.sum_cons]
      simp only [sumNumJobs] at ih
      omega

lemma sumNumJobs_collectGo (kf : Job → String)
    (filt : List ((Job → String) × List String)) :
    ∀ (l : List Job) (n : Nat) (m : List (String × RawAcc)),
      sumNumJobs (collectGo kf filt n l m) =
        sumNumJobs m + (l.filter (fun job => jobMatches filt job)).length := by
  intro l
  induction l with
  | nil => intro n m; simp [collectGo]
  | cons job rest ih =>
    intro n m
    by_cases h : jobMatches filt job
    · have hrec := ih (n + 1) (updateAcc m (kf job) n job)
      simp only [collectGo, if_pos h]
      rw [hrec, sumNumJobs_updateAcc]
      simp only [List.filter_cons, h, if_pos, List.length_cons]
      omega
    · simp only [collectGo, if_neg h, ih, List.filter_cons]

lemma numJobs_updateAcc (k : String) (i : Nat) (job : Job) :
    ∀ (m : List (String × RawAcc)),
      (∀ q ∈ m, 1 ≤ q.2.NumJobs) →
      ∀ p ∈ updateAcc m k i job, 1 ≤ p.2.NumJobs := by
  intro m
  induction m with
  | nil =>
    intro _ p hp
    simp [updateAcc] at hp
    simp [hp, accInit]
  | cons q rest ih =>
    intro hm p hp
    by_cases h : q.1 = k
    · simp only [updateAcc, if_pos h] at hp
      rcases List.mem_cons.mp hp with hp | hp
      · simp [hp, accAdd]
      · exact hm p (List.mem_cons_of_mem _ hp)
    · simp only [updateAcc, if_neg h] at hp
      rcases List.mem_cons.mp hp with hp | hp
      · exact hp ▸ hm q (List.mem_cons_self _ _)
      · exact ih (fun r hr => hm r (List.mem_cons_of_mem _ hr)) p hp

lemma numJobs_collectGo (kf : Job → String)
    (filt : List ((Job → String) × List String)) :
    ∀ (l : List Job) (n : Nat) (m : List (String × RawAcc)),
      (∀ q ∈ m, 1 ≤ q.2.NumJobs) →
      ∀ p ∈ collectGo kf filt n l m, 1 ≤ p.2.NumJobs := by
  intro l
  induction l with
  | nil => intro n m hm p hp; exact hm p hp
  | cons job rest ih =>
    intro n m hm p hp
    by_cases h : jobMatches filt job
    · simp only [collectGo, if_pos h] at hp
      exact ih _ _ (numJobs_updateAcc _ _ _ m hm) p hp
    · simp only [collectGo, if_neg h] at hp
      exact ih _ _ hm p hp

/-! ## Claim theorems C4, C5, C10 -/

/-- C4: after `PurgeJobs`, every surviving job has a partition in the
partition map, an account in the account map, a node list contained in the
node map, and an end time inside the inclusive window `[Start, End]`; and
every job of the assembled list violating any of these conditions is
removed. -/
theorem c4_purge_invariant (c : Cluster) (job : Job) :
    (job ∈ PurgeJobs c →
      job ∈ c.Jobs ∧
      (lookupBy c.Partitions job.Partition).isSome = true ∧
      (lookupBy c.Accounts job.Account).isSome = true ∧
      (∀ node ∈ job.NodeList, (lookupBy c.Nodes node).isSome = true) ∧
      c.Start ≤ job.End ∧ job.End ≤ c.End) ∧
    (job ∈ c.Jobs →
      ¬((lookupBy c.Partitions job.Partition).isSome = true ∧
        (lookupBy c.Accounts job.Account).isSome = true ∧
        (∀ node ∈ job.NodeList, (lookupBy c.Nodes node).isSome = true) ∧
        c.Start ≤ job.End ∧ job.End ≤ c.End) →
      job ∉ PurgeJobs c) := by
  constructor
  · intro h
    have h' := List.mem_filter.mp h
    refine ⟨h'.1, ?_⟩
    have hk := h'.2
    simp only [jobKeep, Bool.and_eq_true, List.all_eq_true,
      decide_eq_true_eq] at hk
    exact ⟨hk.1.1.1, hk.1.1.2, hk.1.2, hk.2.1, hk.2.2⟩
  · intro _ hviol hmem
    apply hviol
    have h' := List.mem_filter.mp hmem
    have hk := h'.2
    simp only [jobKeep, Bool.and_eq_true, List.all_eq_true,
      decide_eq_true_eq] at hk
    exact ⟨hk.1.1.1, hk.1.1.2, hk.1.2, hk.2.1, hk.2.2⟩

/-- Witness for C4 at the concrete two-job cluster: the conforming job
survives the purge with its conditions established, and the job with the
undefined partition is removed. -/
theorem c4_witness :
    (lookupBy clusterC4.Partitions jobGoodC4.Partition).isSome = true ∧
    jobBadC4 ∉ PurgeJobs clusterC4 := by
  have hpurge : PurgeJobs clusterC4 = [jobGoodC4] := rfl
  have hmem : jobGoodC4 ∈ PurgeJobs clusterC4 := by
    rw [hpurge]
    exact List.mem_singleton.mpr rfl
  refine ⟨((c4_purge_invariant clusterC4 jobGoodC4).1 hmem).2.1, ?_⟩
  exact (c4_purge_invariant clusterC4 jobBadC4).2
    (by
      rw [show clusterC4.Jobs = [jobGoodC4, jobBadC4] from rfl]
      exact List.mem_cons_of_mem _ (List.mem_singleton.mpr rfl))
    (by
      intro hcond
      have : (lookupBy clusterC4.Partitions jobBadC4.Partition).isSome =
          true := hcond.1
      simp [lookupBy, clusterC4, pconfC1, jobBadC4] at this)

/-- C5: for every job list, filter and grouping key function, the sum of
`NumJobs` over all group values of the constructed stats equals the number
of jobs passing the filter. -/
theorem c5_numjobs_total (kf : Job → String)
    (filt : List ((Job → String) × List String)) (jobs : List Job) :
    sumNumJobs (CollectStats kf filt jobs) =
      (jobs.filter (fun job => jobMatches filt job)).length := by
  have h := sumNumJobs_collectGo kf filt jobs 0 []
  simpa [CollectStats, sumNumJobs] using h

/-- C10: every group-value accumulator of a constructed stats map has
`NumJobs ≥ 1` (entries are created with `NumJobs = 1` and only ever
incremented), so the mean normalizations never divide by a zero job
count. -/
theorem c10_numjobs_pos (kf : Job → String)
    (filt : List ((Job → String) × List String)) (jobs : List Job)
    (p : String × RawAcc) (hp : p ∈ CollectStats kf filt jobs) :
    1 ≤ p.2.NumJobs ∧ ((p.2.NumJobs : ℚ) ≠ 0) := by
  have h1 : 1 ≤ p.2.NumJobs :=
    numJobs_collectGo kf filt jobs 0 [] (by simp) p hp
  refine ⟨h1, ?_⟩
  have : (0 : ℚ) < (p.2.NumJobs : ℚ) := by
    exact_mod_cast Nat.lt_of_lt_of_le Nat.zero_lt_one h1
  exact ne_of_gt this

/-- Witness for C10 at a one-job stats map. -/
theorem c10_witness :
    1 ≤ (accInit 0 (default : Job)).NumJobs ∧
      (((accInit 0 (default : Job)).NumJobs : ℚ) ≠ 0) :=
  c10_numjobs_pos (fun job => job.Account) [] [(default : Job)]
    ("", accInit 0 (default : Job))
    (by
      rw [show CollectStats (fun job => job.Account) [] [(default : Job)] =
        [("", accInit 0 (default : Job))] from rfl]
      exact List.mem_singleton.mpr rfl)

/-! ## Claim theorems C3, C8 -/

lemma lookupBy_map {α β : Type} (f : α → β) :
    ∀ (m : List (String × α)) (k : String),
      lookupBy (m.map (fun p => (p.1, f p.2))) k = (lookupBy m k).map f := by
  intro m k
  induction m with
  | nil => simp [lookupBy]
  | cons p rest ih =>
    by_cases h : p.1 == k
    · simp [lookupBy, List.find?, h]
    · simp only [lookupBy, List.map_cons, List.find?, h] at ih ⊢
      exact ih

lemma lookupBy_NormStats (m : List (String × RawAcc)) (SU CT : ℚ)
    (k : String) :
    lookupBy (NormStats m SU CT) k = (lookupBy m k).map (normAcc m SU CT) := by
  exact lookupBy_map (normAcc m SU CT) m k

/-- C3: in `NormStats`, `SUPer` of a group is the group's `ServUnits` sum
over the supplied global `ServUnits` denominator times 100; when that
denominator is zero it falls back to the sum of `ServUnits` across all
group values of the same key, and to 0 when that recomputed denominator is
zero as well; `NTPer` and `CTPer` do the same against the global `CPUTime`
denominator. -/
theorem c3_percent_fallback (m : List (String × RawAcc)) (SU CT : ℚ)
    (k : String) (a : RawAcc) (ha : lookupBy m k = some a) :
    ∃ na, lookupBy (NormStats m SU CT) k = some na ∧
      (SU ≠ 0 → na.SUPer = a.ServUnits / SU * 100) ∧
      (SU = 0 → sumRes m RawAcc.ServUnits ≠ 0 →
        na.SUPer = a.ServUnits / sumRes m RawAcc.ServUnits * 100) ∧
      (SU = 0 → sumRes m RawAcc.ServUnits = 0 → na.SUPer = 0) ∧
      (CT ≠ 0 → na.NTPer = a.NodeTime / CT * 100) ∧
      (CT = 0 → sumRes m RawAcc.NodeTime ≠ 0 →
        na.NTPer = a.NodeTime / sumRes m RawAcc.NodeTime * 100) ∧
      (CT = 0 → sumRes m RawAcc.NodeTime = 0 → na.NTPer = 0) ∧
      (CT ≠ 0 → na.CTPer = a.CPUTime / CT * 100) ∧
      (CT = 0 → sumRes m RawAcc.CPUTime ≠ 0 →
        na.CTPer = a.CPUTime / sumRes m RawAcc.CPUTime * 100) ∧
      (CT = 0 → sumRes m RawAcc.CPUTime = 0 → na.CTPer = 0) := by
  refine ⟨normAcc m SU CT a, ?_, ?_, ?_, ?_, ?_, ?_, ?_, ?_, ?_, ?_⟩
  · rw [lookupBy_NormStats, ha]
    rfl
  · intro h; simp [normAcc, normPct, h]
  · intro h h'; simp [normAcc, normPct, h, h']
  · intro h h'; simp [normAcc, normPct, h, h']
  · intro h; simp [normAcc, normPct, h]
  · intro h h'; simp [normAcc, normPct, h, h']
  · intro h h'; simp [normAcc, normPct, h, h']
  · intro h; simp [normAcc, normPct, h]
  · intro h h'; simp [normAcc, normPct, h, h']
  · intro h h'; simp [normAcc, normPct, h, h']

/-- Witness for C3 at a concrete one-entry stats map with a zero global
`ServUnits` denominator and a nonzero recomputed one. -/
theorem c3_witness :
    lookupBy mC3 "u" = some (accInit 0 jobC3) ∧
    ∃ na, lookupBy (NormStats mC3 0 36000) "u" = some na ∧
      na.SUPer = 7200 / 7200 * 100 ∧ na.NTPer = 3600 / 36000 * 100 := by
  have ha : lookupBy mC3 "u" = some (accInit 0 jobC3) := by rfl
  refine ⟨ha, ?_⟩
  obtain ⟨na, h1, h2, h3, h4, h5, h6, h7, h8, h9, h10⟩ :=
    c3_percent_fallback mC3 0 36000 "u" _ ha
  refine ⟨na, h1, ?_, ?_⟩
  · have := h3 rfl (by norm_num [sumRes, mC3, accInit, jobC3])
    simpa [sumRes, mC3, accInit, jobC3] using this
  · have := h5 (by norm_num)
    simpa [accInit, jobC3] using this

/-- C8: duration accumulation in `CollectStats` clamps an overflowing sum
to the maximum representable duration instead of raising (for each of the
eight duration-valued resources), and normalization maps a clamped-max
duration total or mean to the sentinel 999999.99 instead of converting it
to hours. -/
theorem c8_overflow_clamp :
    (∀ a b : ℚ, tdMax < a + b → tdAddClamp a b = tdMax) ∧
    (∀ a b : ℚ, tdMin ≤ a + b → a + b ≤ tdMax → tdAddClamp a b = a + b) ∧
    (∀ (acc : RawAcc) (i : Nat) (job : Job),
      (accAdd acc i job).CPUTime = tdAddClamp acc.CPUTime job.CPUTime ∧
      (accAdd acc i job).Elapsed = tdAddClamp acc.Elapsed job.Elapsed ∧
      (accAdd acc i job).NodeTime = tdAddClamp acc.NodeTime job.NodeTime ∧
      (accAdd acc i job).Reserved = tdAddClamp acc.Reserved job.Reserved ∧
      (accAdd acc i job).SystemCPU = tdAddClamp acc.SystemCPU job.SystemCPU ∧
      (accAdd acc i job).Timelimit = tdAddClamp acc.Timelimit job.Timelimit ∧
      (accAdd acc i job).TotalCPU = tdAddClamp acc.TotalCPU job.TotalCPU ∧
      (accAdd acc i job).UserCPU = tdAddClamp acc.UserCPU job.UserCPU) ∧
    (∀ (m : List (String × RawAcc)) (SU CT : ℚ) (a : RawAcc),
      (a.ServUnits = tdMax → (normAcc m SU CT a).ServUnits = 999999.99) ∧
      (a.NodeTime = tdMax → (normAcc m SU CT a).NodeTime = 999999.99) ∧
      (a.CPUTime = tdMax → (normAcc m SU CT a).CPUTime = 999999.99) ∧
      (a.TotalCPU = tdMax → (normAcc m SU CT a).TotalCPU = 999999.99) ∧
      (a.SystemCPU = tdMax → (normAcc m SU CT a).SystemCPU = 999999.99) ∧
      (a.UserCPU = tdMax → (normAcc m SU CT a).UserCPU = 999999.99) ∧
      (a.Timelimit = tdMax → (normAcc m SU CT a).Timelimit = 999999.99) ∧
      (a.Elapsed = tdMax → (normAcc m SU CT a).Elapsed = 999999.99) ∧
      (a.Reserved = tdMax → (normAcc m SU CT a).Reserved = 999999.99)) := by
  refine ⟨?_, ?_, ?_, ?_⟩
  · intro a b h
    simp [tdAddClamp, h]
  · intro a b h h'
    have hno : ¬(tdMax < a + b ∨ a + b < tdMin) := by
      push_neg
      exact ⟨h', h⟩
    rw [tdAddClamp, if_neg hno]
  · intro acc i job
    exact ⟨rfl, rfl, rfl, rfl, rfl, rfl, rfl, rfl⟩
  · intro m SU CT a
    refine ⟨?_, ?_, ?_, ?_, ?_, ?_, ?_, ?_, ?_⟩ <;>
      (intro h; simp [normAcc, normDurTotal, normDurMean, h])

/-- Witness for C8: a concrete overflowing sum clamps to the maximum, a
concrete in-range sum is exact, and a clamped-max total and mean map to
the sentinel. -/
theorem c8_witness :
    tdAddClamp tdMax 1 = tdMax ∧
    tdAddClamp 1 2 = 3 ∧
    (normAcc [] 0 0 (accInit 0 jobC8)).ServUnits = 999999.99 ∧
    (normAcc [] 0 0 (accInit 0 jobC8)).TotalCPU = 999999.99 := by
  refine ⟨c8_overflow_clamp.1 tdMax 1 (by norm_num [tdMax]), ?_, ?_, ?_⟩
  · have h := c8_overflow_clamp.2.1 1 2 (by norm_num [tdMin])
      (by norm_num [tdMax])
    rw [h]
    norm_num
  · exact (c8_overflow_clamp.2.2.2 [] 0 0 (accInit 0 jobC8)).1 rfl
  · exact (c8_overflow_clamp.2.2.2 [] 0 0 (accInit 0 jobC8)).2.2.2.1 rfl

/-! ## Claim theorem C7 -/

lemma padNum_zero (i : Nat) : padNum 0 i = toString i := by
  simp [padNum]

lemma tripMaxlen_two_swap (x y la lb : Nat) :
    tripMaxlen [(x, y, [la, lb])] = tripMaxlen [(x, y, [lb, la])] := by
  by_cases hl : la = lb
  · subst hl
    rfl
  · have h1 : tripStrlens [(x, y, [la, lb])] = [la, lb] := by rfl
    have h2 : tripStrlens [(x, y, [lb, la])] = [lb, la] := by rfl
    have hd1 : [la, lb].dedup = [la, lb] := by
      rw [List.dedup_cons_of_not_mem, List.dedup_cons_of_not_mem,
        List.dedup_nil] <;> simp [hl]
    have hd2 : [lb, la].dedup = [lb, la] := by
      rw [List.dedup_cons_of_not_mem, List.dedup_cons_of_not_mem,
        List.dedup_nil] <;> simp [Ne.symm hl]
    rw [tripMaxlen, tripMaxlen, h1, h2, hd1, hd2]
    norm_num

/-- C7: `exp_range` expands `"0-2"` and `"2-0"` to the same set
`{"0","1","2"}` (a descending range expands identically to the ascending
one, proved in general at the component level), and zero-pads to a common
width only when all range components share one printed width — the mixed
width input `"1-2,10-11"` stays unpadded, and in general differing
component widths force the unpadded decimal form. -/
theorem c7_exp_range :
    exp_range "0-2" = some ["0", "1", "2"] ∧
    exp_range "2-0" = some ["0", "1", "2"] ∧
    exp_range "1-2,10-11" = some ["1", "2", "10", "11"] ∧
    (∀ a b : String, expRangeSplit [[a, b]] = expRangeSplit [[b, a]]) ∧
    (∀ (parts : List (List String)) (trips : List (Nat × Nat × List Nat)),
      parts.mapM processPart = some trips →
      1 < (tripStrlens trips).dedup.length →
      expRangeSplit parts =
        some ((intsAscending (tripInts trips)).map (fun i => toString i))) := by
  refine ⟨by decide, by decide, by decide, ?_, ?_⟩
  · intro a b
    have hga : ([a, b].getLastD "") = b := rfl
    have hgb : ([b, a].getLastD "") = a := rfl
    rcases ha : parseNum a with _ | na <;> rcases hb : parseNum b with _ | nb <;>
      simp only [expRangeSplit, processPart, List.headD_cons, hga, hgb,
        ha, hb, List.mapM_cons, List.mapM_nil,
        Option.bind_eq_bind, Option.none_bind, Option.some_bind,
        Option.pure_def, Option.bind_none, Option.bind_some]
    have hbounds : (if na < nb then (na, nb) else (nb, na)) =
        (if nb < na then (nb, na) else (na, nb)) := by
      rcases Nat.lt_trichotomy na nb with h | h | h
      · rw [if_pos h, if_neg (Nat.lt_asymm h)]
      · subst h
        simp
      · rw [if_neg (Nat.lt_asymm h), if_pos h]
    rw [hbounds]
    simp only [List.map_cons, List.map_nil]
    have hm := tripMaxlen_two_swap
      (if nb < na then (nb, na) else (na, nb)).1
      (if nb < na then (nb, na) else (na, nb)).2
      (pyStrip a.data).length (pyStrip b.data).length
    rw [hm]
    have hints : tripInts [((if nb < na then (nb, na) else (na, nb)).1,
        (if nb < na then (nb, na) else (na, nb)).2,
        [(pyStrip a.data).length, (pyStrip b.data).length])] =
        tripInts [((if nb < na then (nb, na) else (na, nb)).1,
        (if nb < na then (nb, na) else (na, nb)).2,
        [(pyStrip b.data).length, (pyStrip a.data).length])] := by rfl
    rw [hints]
  · intro parts trips hmap hw
    simp only [expRangeSplit, hmap, Option.bind_eq_bind, Option.some_bind,
      Option.pure_def]
    have h0 : tripMaxlen trips = 0 := by
      rw [tripMaxlen, if_pos hw]
    rw [h0]
    congr 1
    exact List.map_congr_left (fun i _ => padNum_zero i)

/-! ## Lemmas: `exp_cpulist` structure (C1, C2) -/

lemma foldl_append_eq {α β : Type} (g : β → List α) :
    ∀ (l : List β) (acc : List α),
      l.foldl (fun a b => a ++ g b) acc = acc ++ (l.map g).flatten := by
  intro l
  induction l with
  | nil => intro acc; simp
  | cons b rest ih =>
    intro acc
    simp only [List.foldl_cons, ih, List.map_cons, List.flatten_cons,
      List.append_assoc]

lemma cyclicPass_eq (conf : List (String × Node)) :
    ∀ (nl : List String) (st : Nat × List String),
      cyclicPass conf nl st =
        (st.1 + nl.length, st.2 ++ (nl.map (expNodeCyc conf)).flatten) := by
  intro nl
  induction nl with
  | nil => intro st; simp [cyclicPass]
  | cons nd rest ih =>
    intro st
    have h1 : cyclicPass conf (nd :: rest) st =
        cyclicPass conf rest (st.1 + 1, st.2 ++ expNodeCyc conf nd) := rfl
    rw [h1, ih]
    simp only [List.map_cons, List.flatten_cons, List.append_assoc,
      List.length_cons, Prod.mk.injEq]
    exact ⟨by omega, trivial⟩

lemma cyclicLoop_spec (conf : List (String × Node)) (nl : List String)
    (alloc : Nat) :
    ∀ (fuel : Nat), ∀ (cpus : Nat) (acc : List String),
      alloc ≤ cpus + fuel * nl.length →
      ∃ k, cyclicLoop conf nl alloc fuel cpus acc =
          acc ++ (List.replicate k ((nl.map (expNodeCyc conf)).flatten)).flatten ∧
        (cpus < alloc → alloc ≤ cpus + k * nl.length ∧
          cpus + k * nl.length < alloc + nl.length) ∧
        (alloc ≤ cpus → k = 0) := by
  intro fuel
  induction fuel with
  | zero =>
    intro cpus acc h
    simp only [Nat.zero_mul, Nat.add_zero] at h
    refine ⟨0, by simp [cyclicLoop], ?_, fun _ => rfl⟩
    intro hlt
    omega
  | succ fuel ih =>
    intro cpus acc h
    by_cases hlt : cpus < alloc
    · have hstep : cyclicLoop conf nl alloc (fuel + 1) cpus acc =
          cyclicLoop conf nl alloc fuel (cpus + nl.length)
            (acc ++ (nl.map (expNodeCyc conf)).flatten) := by
        show (if cpus < alloc then _ else _) = _
        rw [if_pos hlt, cyclicPass_eq]
      have hfuel : alloc ≤ cpus + nl.length + fuel * nl.length := by
        rw [Nat.succ_mul] at h
        omega
      obtain ⟨k', heq, hb1, hb2⟩ := ih (cpus + nl.length)
        (acc ++ (nl.map (expNodeCyc conf)).flatten) hfuel
      refine ⟨k' + 1, ?_, ?_, ?_⟩
      · rw [hstep, heq]
        simp [List.replicate_succ, List.append_assoc]
      · intro _
        rw [Nat.succ_mul]
        by_cases h2 : cpus + nl.length < alloc
        · have := hb1 h2
          omega
        · have := hb2 (Nat.le_of_not_lt h2)
          subst this
          simp only [Nat.zero_mul] at *
          omega
      · intro hge
        omega
    · refine ⟨0, ?_, fun h' => absurd h' hlt, fun _ => rfl⟩
      show (if cpus < alloc then _ else _) = _
      rw [if_neg hlt]
      simp

lemma mem_expNodeDed {conf : List (String × Node)} {nd : String}
    {x : String} (hx : x ∈ expNodeDed conf nd) :
    ∃ n, lookupBy conf nd = some n ∧ n.Name = x := by
  rcases hl : lookupBy conf nd with _ | n
  · rw [expNodeDed, hl] at hx
    simp at hx
  · rw [expNodeDed, hl] at hx
    exact ⟨n, rfl, (List.eq_of_mem_replicate hx).symm⟩

lemma mem_expNodeEven {conf : List (String × Node)} {ppn : Nat}
    {nd : String} {x : String} (hx : x ∈ expNodeEven conf ppn nd) :
    ∃ n, lookupBy conf nd = some n ∧ n.Name = x := by
  rcases hl : lookupBy conf nd with _ | n
  · rw [expNodeEven, hl] at hx
    simp at hx
  · rw [expNodeEven, hl] at hx
    exact ⟨n, rfl, (List.eq_of_mem_replicate hx).symm⟩

lemma mem_expNodeCyc {conf : List (String × Node)} {nd : String}
    {x : String} (hx : x ∈ expNodeCyc conf nd) :
    ∃ n, lookupBy conf nd = some n ∧ n.Name = x := by
  rcases hl : lookupBy conf nd with _ | n
  · rw [expNodeCyc, hl] at hx
    simp at hx
  · rw [expNodeCyc, hl] at hx
    simp at hx
    exact ⟨n, rfl, hx.symm⟩

lemma mem_cyclicLoop (conf : List (String × Node)) (nl : List String)
    (alloc : Nat) :
    ∀ (fuel cpus : Nat) (acc : List String) (x : String),
      x ∈ cyclicLoop conf nl alloc fuel cpus acc →
      x ∈ acc ∨ ∃ nd ∈ nl, x ∈ expNodeCyc conf nd := by
  intro fuel
  induction fuel with
  | zero => intro cpus acc x hx; exact Or.inl hx
  | succ fuel ih =>
    intro cpus acc x hx
    by_cases hlt : cpus < alloc
    · have hstep : cyclicLoop conf nl alloc (fuel + 1) cpus acc =
          cyclicLoop conf nl alloc fuel (cpus + nl.length)
            (acc ++ (nl.map (expNodeCyc conf)).flatten) := by
        show (if cpus < alloc then _ else _) = _
        rw [if_pos hlt, cyclicPass_eq]
      rw [hstep] at hx
      rcases ih _ _ _ hx with hx' | hx'
      · rcases List.mem_append.mp hx' with hx'' | hx''
        · exact Or.inl hx''
        · obtain ⟨l, hl, hxl⟩ := List.mem_flatten.mp hx''
          obtain ⟨nd, hnd, rfl⟩ := List.mem_map.mp hl
          exact Or.inr ⟨nd, hnd, hxl⟩
      · exact Or.inr hx'
    · have hstep : cyclicLoop conf nl alloc (fuel + 1) cpus acc = acc := by
        show (if cpus < alloc then _ else _) = _
        rw [if_neg hlt]
      rw [hstep] at hx
      exact Or.inl hx

lemma mem_exp_cpulist {job : Job} {conf : List (String × Node)} {sh : Bool}
    {x : String} (hx : x ∈ exp_cpulist job conf sh) :
    ∃ nd ∈ job.NodeList, ∃ n, lookupBy conf nd = some n ∧ n.Name = x := by
  rcases sh with _ | _
  · rw [exp_cpulist] at hx
    simp only [Bool.not_false, if_pos] at hx
    rw [foldl_append_eq, List.nil_append] at hx
    obtain ⟨l, hl, hxl⟩ := List.mem_flatten.mp hx
    obtain ⟨nd, hnd, rfl⟩ := List.mem_map.mp hl
    exact ⟨nd, hnd, mem_expNodeDed hxl⟩
  · rw [exp_cpulist] at hx
    simp only [Bool.not_true, Bool.false_eq_true, if_false] at hx
    by_cases h0 : job.NNodes ≠ 0
    · rw [if_pos h0] at hx
      by_cases hmod : job.AllocCPUS % job.NNodes = 0
      · rw [if_pos hmod] at hx
        rw [foldl_append_eq, List.nil_append] at hx
        obtain ⟨l, hl, hxl⟩ := List.mem_flatten.mp hx
        obtain ⟨nd, hnd, rfl⟩ := List.mem_map.mp hl
        exact ⟨nd, hnd, mem_expNodeEven hxl⟩
      · rw [if_neg hmod] at hx
        rcases mem_cyclicLoop conf job.NodeList job.AllocCPUS _ _ _ _ hx with
          h | ⟨nd, hnd, hxl⟩
        · simp at h
        · exact ⟨nd, hnd, mem_expNodeCyc hxl⟩
    · rw [if_neg h0] at hx
      simp at hx

lemma cpulist_all_defined {job : Job} {conf : List (String × Node)}
    (hn : ∀ nd ∈ job.NodeList, ∃ n, lookupBy conf nd = some n ∧ n.Name = nd)
    (sh : Bool) :
    (exp_cpulist job conf sh).all
      (fun node => (lookupBy conf node).isSome) = true := by
  rw [List.all_eq_true]
  intro x hx
  obtain ⟨nd, hnd, n, hl, hname⟩ := mem_exp_cpulist hx
  obtain ⟨n₂, hl₂, hname₂⟩ := hn nd hnd
  rw [hl] at hl₂
  cases hl₂
  rw [← hname, hname₂, hl]
  rfl

lemma jobCPUList_C1 : jobCPUList jobC1 pconfC1 nconfC1 = ["n1"] := rfl

lemma ntsC1_snd :
    (popNodeTimeServUnits jobC1 nconfC1 (jobCPUList jobC1 pconfC1 nconfC1)).2 =
      HOUR := by
  have hcond : (["n1"].all fun node => (lookupBy nconfC1 node).isSome) =
      true := rfl
  rw [jobCPUList_C1, popNodeTimeServUnits, if_pos hcond]
  have hel : jobC1.Elapsed = 3600 := rfl
  have hmap : ["n1"].map
      (fun node => ((lookupBy nconfC1 node).map Node.Modifier).getD 0) =
      [1] := rfl
  rw [hel, hmap]
  norm_num [HOUR, MINUTE]

lemma ntsC1_fst :
    (popNodeTimeServUnits jobC1 nconfC1 (jobCPUList jobC1 pconfC1 nconfC1)).1 =
      3600 := by
  have hcond : (["n1"].all fun node => (lookupBy nconfC1 node).isSome) =
      true := rfl
  rw [jobCPUList_C1, popNodeTimeServUnits, if_pos hcond]
  have hel : jobC1.Elapsed = 3600 := rfl
  rw [hel]
  norm_num

lemma chargeC1 :
    popCharge jobC1
      (popNodeTimeServUnits jobC1 nconfC1 (jobCPUList jobC1 pconfC1 nconfC1)).2
      pconfC1 qconfC1 aconfC1 = 1 := by
  rw [popCharge]
  have h1 : lookupBy pconfC1 jobC1.Partition =
      some ⟨"p", ["n1"], false, 1⟩ := rfl
  have h2 : lookupBy qconfC1 jobC1.QOS = some ⟨"q", 1⟩ := rfl
  have h3 : lookupBy aconfC1 jobC1.Account =
      some ⟨"acct", "", "div", "", "", 1⟩ := rfl
  rw [h1, h2, h3]
  simp only []
  rw [ntsC1_snd]
  norm_num [HOUR, MINUTE]

/-! ## Claim theorems C1, C2 -/

/-- C1 counterexample to the claim as stated: a job whose QOS is missing
from the topology but whose partition and nodes are defined keeps a
nonzero `NodeTime` (only `Charge` falls back to 0), contradicting "when a
referenced partition/QOS/account/node is missing, NodeTime and ServUnits
are the zero duration". -/
theorem c1_counterexample :
    lookupBy ([] : List (String × QOS)) jobC1.QOS = none ∧
    (PopDataDerived jobC1 pconfC1 [] nconfC1 aconfC1).NodeTime = 3600 ∧
    ((3600 : ℚ) ≠ 0) := by
  refine ⟨rfl, ?_, by norm_num⟩
  show (popNodeTimeServUnits jobC1 nconfC1
    (jobCPUList jobC1 pconfC1 nconfC1)).1 = 3600
  exact ntsC1_fst

/-- C1 (amended): with the partition, QOS, account and every node of the
CPU list defined, `NodeTime = Elapsed × |CPU list|`,
`ServUnits = Elapsed × Σ node modifiers over the CPU list` and
`Charge = ServUnits in hours × partition × QOS × account modifiers`;
a missing partition zeroes `NodeTime`, `ServUnits` and `Charge`, and a
missing partition, QOS or account zeroes `Charge` (a missing QOS or
account alone leaves `NodeTime`/`ServUnits` untouched, and a missing node
is skipped in the CPU list); in particular the one-node, modifier-1,
one-hour dedicated job yields `ServUnits` of one node-hour and
`Charge = 1`. -/
theorem c1_nodeTime_servUnits_charge (job : Job)
    (parts_conf : List (String × Partition)) (qoss_conf : List (String × QOS))
    (nodes_conf : List (String × Node)) (accts_conf : List (String × Account)) :
    ((∀ nd ∈ job.NodeList, ∃ n, lookupBy nodes_conf nd = some n ∧ n.Name = nd) →
      ∀ (p : Partition) (q : QOS) (acct : Account),
        lookupBy parts_conf job.Partition = some p →
        lookupBy qoss_conf job.QOS = some q →
        lookupBy accts_conf job.Account = some acct →
        (PopDataDerived job parts_conf qoss_conf nodes_conf accts_conf).NodeTime =
          job.Elapsed * ((jobCPUList job parts_conf nodes_conf).length : ℚ) ∧
        (PopDataDerived job parts_conf qoss_conf nodes_conf accts_conf).ServUnits =
          job.Elapsed * ((jobCPUList job parts_conf nodes_conf).map
            (fun node => ((lookupBy nodes_conf node).map Node.Modifier).getD 0)).sum ∧
        (PopDataDerived job parts_conf qoss_conf nodes_conf accts_conf).Charge =
          (PopDataDerived job parts_conf qoss_conf nodes_conf accts_conf).ServUnits /
            HOUR * p.Modifier * q.Modifier * acct.Modifier) ∧
    (lookupBy parts_conf job.Partition = none →
      (PopDataDerived job parts_conf qoss_conf nodes_conf accts_conf).NodeTime = 0 ∧
      (PopDataDerived job parts_conf qoss_conf nodes_conf accts_conf).ServUnits = 0 ∧
      (PopDataDerived job parts_conf qoss_conf nodes_conf accts_conf).Charge = 0) ∧
    ((lookupBy parts_conf job.Partition = none ∨
      lookupBy qoss_conf job.QOS = none ∨
      lookupBy accts_conf job.Account = none) →
      (PopDataDerived job parts_conf qoss_conf nodes_conf accts_conf).Charge = 0) ∧
    ((PopDataDerived jobC1 pconfC1 qconfC1 nconfC1 aconfC1).ServUnits = HOUR ∧
      (PopDataDerived jobC1 pconfC1 qconfC1 nconfC1 aconfC1).Charge = 1) := by
  refine ⟨?_, ?_, ?_, ntsC1_snd, chargeC1⟩
  · intro hn p q acct hp hq hacct
    have hcp : jobCPUList job parts_conf nodes_conf =
        exp_cpulist job nodes_conf p.Shared := by
      simp [jobCPUList, hp]
    have hall := cpulist_all_defined hn p.Shared
    refine ⟨?_, ?_, ?_⟩
    · show (popNodeTimeServUnits job nodes_conf
        (jobCPUList job parts_conf nodes_conf)).1 = _
      rw [hcp, popNodeTimeServUnits, if_pos hall]
    · show (popNodeTimeServUnits job nodes_conf
        (jobCPUList job parts_conf nodes_conf)).2 = _
      rw [hcp, popNodeTimeServUnits, if_pos hall]
    · show popCharge job (popNodeTimeServUnits job nodes_conf
        (jobCPUList job parts_conf nodes_conf)).2 parts_conf qoss_conf
        accts_conf = _
      rw [popCharge]
      rw [hp, hq, hacct]
      rfl
  · intro hp
    have hcp : jobCPUList job parts_conf nodes_conf = [] := by
      simp [jobCPUList, hp]
    refine ⟨?_, ?_, ?_⟩
    · show (popNodeTimeServUnits job nodes_conf
        (jobCPUList job parts_conf nodes_conf)).1 = 0
      rw [hcp]
      simp [popNodeTimeServUnits]
    · show (popNodeTimeServUnits job nodes_conf
        (jobCPUList job parts_conf nodes_conf)).2 = 0
      rw [hcp]
      simp [popNodeTimeServUnits]
    · show popCharge job _ parts_conf qoss_conf accts_conf = 0
      rw [popCharge, hp]
  · intro hmiss
    show popCharge job _ parts_conf qoss_conf accts_conf = 0
    rw [popCharge]
    rcases h1 : lookupBy parts_conf job.Partition with _ | p <;>
      rcases h2 : lookupBy qoss_conf job.QOS with _ | q <;>
        rcases h3 : lookupBy accts_conf job.Account with _ | acct <;>
          simp only []
    rcases hmiss with h | h | h <;> simp_all

/-- Witness for C1's fully-defined clause at the concrete one-node
configuration. -/
theorem c1_witness :
    (PopDataDerived jobC1 pconfC1 qconfC1 nconfC1 aconfC1).NodeTime =
      jobC1.Elapsed * ((jobCPUList jobC1 pconfC1 nconfC1).length : ℚ) :=
  ((c1_nodeTime_servUnits_charge jobC1 pconfC1 qconfC1 nconfC1 aconfC1).1
    (by
      intro nd hnd
      have hl : jobC1.NodeList = ["n1"] := rfl
      rw [hl] at hnd
      have : nd = "n1" := by simpa using hnd
      subst this
      exact ⟨⟨"n1", 1, 0, 0, 0, 1⟩, rfl, rfl⟩)
    ⟨"p", ["n1"], false, 1⟩ ⟨"q", 1⟩ ⟨"acct", "", "div", "", "", 1⟩
    rfl rfl rfl).1

/-- C2 counterexample to the claim as stated: a shared-partition job with
all nodes defined, two nodes and three allocated CPUs gets a CPU list of
four entries, not `AllocCPUS = 3`: the cyclic loop only stops at the end
of a full pass over the node list. -/
theorem c2_counterexample :
    jobC2.AllocCPUS % jobC2.NNodes ≠ 0 ∧
    jobC2.NNodes ≠ 0 ∧
    (∀ nd ∈ jobC2.NodeList, (lookupBy nodesC2 nd).isSome = true) ∧
    jobC2.NodeList ≠ [] ∧
    exp_cpulist jobC2 nodesC2 true = ["a", "b", "a", "b"] ∧
    jobC2.AllocCPUS = 3 ∧
    (exp_cpulist jobC2 nodesC2 true).length ≠ jobC2.AllocCPUS := by
  decide

/-- C2 (amended): for a shared-partition job with a nonzero node count
that does not divide the allocated-CPU count evenly and a non-empty node
list, the CPU list is a whole number `k` of round-robin passes over the
node list (each pass contributing one entry per defined node, in node-list
order), where `k` is the least number of passes that reaches `AllocCPUS`:
the list length is the smallest multiple of the node-list length that is
at least `AllocCPUS`, not `AllocCPUS` itself. -/
theorem c2_cyclic_roundRobin (job : Job) (nodes_conf : List (String × Node))
    (h0 : job.NNodes ≠ 0) (hmod : job.AllocCPUS % job.NNodes ≠ 0)
    (hnl : job.NodeList ≠ []) :
    ∃ k, exp_cpulist job nodes_conf true =
        (List.replicate k
          ((job.NodeList.map (expNodeCyc nodes_conf)).flatten)).flatten ∧
      job.AllocCPUS ≤ k * job.NodeList.length ∧
      k * job.NodeList.length < job.AllocCPUS + job.NodeList.length := by
  have hL : 1 ≤ job.NodeList.length := by
    cases h : job.NodeList with
    | nil => exact absurd h hnl
    | cons a l => simp [h]
  have hpos : 0 < job.AllocCPUS := by
    rcases Nat.eq_zero_or_pos job.AllocCPUS with h | h
    · rw [h] at hmod
      simp [Nat.zero_mod] at hmod
    · exact h
  have hexp : exp_cpulist job nodes_conf true =
      cyclicLoop nodes_conf job.NodeList job.AllocCPUS
        (job.AllocCPUS + 1) 0 [] := by
    rw [exp_cpulist]
    simp only [Bool.not_true, Bool.false_eq_true, if_false, if_pos h0,
      if_neg hmod]
  have hfuel : job.AllocCPUS ≤ 0 + (job.AllocCPUS + 1) * job.NodeList.length := by
    have := Nat.mul_le_mul_left (job.AllocCPUS + 1) hL
    omega
  obtain ⟨k, heq, hb, _⟩ :=
    cyclicLoop_spec nodes_conf job.NodeList job.AllocCPUS
      (job.AllocCPUS + 1) 0 [] hfuel
  obtain ⟨hb1, hb2⟩ := hb hpos
  exact ⟨k, by rw [hexp, heq, List.nil_append], by omega, by omega⟩

/-- Witness for C2's amended round-robin characterization at the concrete
two-node, three-CPU job. -/
theorem c2_witness :
    ∃ k, exp_cpulist jobC2 nodesC2 true =
        (List.replicate k
          ((jobC2.NodeList.map (expNodeCyc nodesC2)).flatten)).flatten ∧
      jobC2.AllocCPUS ≤ k * jobC2.NodeList.length ∧
      k * jobC2.NodeList.length < jobC2.AllocCPUS + jobC2.NodeList.length :=
  c2_cyclic_roundRobin jobC2 nodesC2 (by decide) (by decide) (by decide)

/-- Witness for C7's general width clause at the split parts of
`"1-2,10-11"`. -/
theorem c7_witness :
    expRangeSplit [["1", "2"], ["10", "11"]] =
      some ((intsAscending (tripInts [(1, 2, [1, 1]), (10, 11, [2, 2])])).map
        (fun i => toString i)) :=
  c7_exp_range.2.2.2.2 [["1", "2"], ["10", "11"]]
    [(1, 2, [1, 1]), (10, 11, [2, 2])] (by decide) (by decide)

/-! ## Lemmas: event collection (C6, C9) -/

lemma mem_collectRaw_kind :
    ∀ (l : List Job) (n : Nat), ∀ e ∈ collectRaw n l,
      e.Event = EVENT_START ∨ e.Event = EVENT_END := by
  intro l
  induction l with
  | nil => intro n e he; simp [collectRaw] at he
  | cons j rest ih =>
    intro n e he
    rw [collectRaw] at he
    rcases List.mem_append.mp he with h | h
    · by_cases hc : j.Start < j.End
      · rw [if_pos hc] at h
        simp only [List.mem_cons, List.not_mem_nil, or_false] at h
        rcases h with rfl | rfl
        · exact Or.inl rfl
        · exact Or.inr rfl
      · rw [if_neg hc] at h
        cases h
    · exact ih (n + 1) e h

lemma mem_collectRaw_index_ge :
    ∀ (l : List Job) (n : Nat), ∀ e ∈ collectRaw n l, n ≤ e.Index := by
  intro l
  induction l with
  | nil => intro n e he; simp [collectRaw] at he
  | cons j rest ih =>
    intro n e he
    rw [collectRaw] at he
    rcases List.mem_append.mp he with h | h
    · by_cases hc : j.Start < j.End
      · rw [if_pos hc] at h
        simp only [List.mem_cons, List.not_mem_nil, or_false] at h
        rcases h with rfl | rfl
        · exact Nat.le_refl n
        · exact Nat.le_refl n
      · rw [if_neg hc] at h
        cases h
    · exact Nat.le_of_succ_le (ih (n + 1) e h)

lemma mem_collectRaw_index_lt :
    ∀ (l : List Job) (n : Nat), ∀ e ∈ collectRaw n l,
      e.Index < n + l.length := by
  intro l
  induction l with
  | nil => intro n e he; simp [collectRaw] at he
  | cons j rest ih =>
    intro n e he
    rw [collectRaw] at he
    rcases List.mem_append.mp he with h | h
    · by_cases hc : j.Start < j.End
      · rw [if_pos hc] at h
        simp only [List.mem_cons, List.not_mem_nil, or_false] at h
        rcases h with rfl | rfl
        · simp
        · simp
      · rw [if_neg hc] at h
        cases h
    · have := ih (n + 1) e h
      simp only [List.length_cons]
      omega

lemma countP_collectRaw_notin (p : Ev → Bool)
    (hp : ∀ e, p e = true → False) :
    ∀ (l : List Ev), l.countP p = 0 := by
  intro l
  rw [List.countP_eq_zero]
  intro e _ hc
  exact absurd (hp e hc) (fun h => h)

lemma countP_collectRaw_start :
    ∀ (l : List Job) (n j : Nat) (job : Job), l.get? j = some job →
      (collectRaw n l).countP (isStartOf (n + j)) =
        if job.Start < job.End then 1 else 0 := by
  intro l
  induction l with
  | nil => intro n j job hj; cases hj
  | cons jb rest ih =>
    intro n j job hj
    rw [collectRaw, List.countP_append]
    have hrest0 : ∀ m, m < n + 1 →
        (collectRaw (n + 1) rest).countP (isStartOf m) = 0 := by
      intro m hm
      rw [List.countP_eq_zero]
      intro e he hc
      have := mem_collectRaw_index_ge rest (n + 1) e he
      simp only [isStartOf, Bool.and_eq_true, beq_iff_eq] at hc
      omega
    cases j with
    | zero =>
      have hjb : jb = job := by
        simpa using hj
      subst hjb
      rw [hrest0 (n + 0) (by omega), Nat.add_zero]
      by_cases hc : jb.Start < jb.End
      · rw [if_pos hc, if_pos hc]
        simp [isStartOf, List.countP_cons, EVENT_START, EVENT_END]
      · rw [if_neg hc, if_neg hc]
        simp
    | succ j' =>
      have hbl : (if jb.Start < jb.End then
          [⟨jb.Start, EVENT_START, n⟩, ⟨jb.End, EVENT_END, n⟩]
          else ([] : List Ev)).countP (isStartOf (n + (j' + 1))) = 0 := by
        by_cases hc : jb.Start < jb.End
        · rw [if_pos hc]
          simp [isStartOf, List.countP_cons, EVENT_START, EVENT_END]
        · rw [if_neg hc]
          simp
      rw [hbl]
      have := ih (n + 1) j' job (by simpa using hj)
      rw [show n + (j' + 1) = n + 1 + j' by omega]
      omega

lemma countP_collectRaw_end :
    ∀ (l : List Job) (n j : Nat) (job : Job), l.get? j = some job →
      (collectRaw n l).countP (isEndOf (n + j)) =
        if job.Start < job.End then 1 else 0 := by
  intro l
  induction l with
  | nil => intro n j job hj; cases hj
  | cons jb rest ih =>
    intro n j job hj
    rw [collectRaw, List.countP_append]
    have hrest0 : ∀ m, m < n + 1 →
        (collectRaw (n + 1) rest).countP (isEndOf m) = 0 := by
      intro m hm
      rw [List.countP_eq_zero]
      intro e he hc
      have := mem_collectRaw_index_ge rest (n + 1) e he
      simp only [isEndOf, Bool.and_eq_true, beq_iff_eq] at hc
      omega
    cases j with
    | zero =>
      have hjb : jb = job := by
        simpa using hj
      subst hjb
      rw [hrest0 (n + 0) (by omega), Nat.add_zero]
      by_cases hc : jb.Start < jb.End
      · rw [if_pos hc, if_pos hc]
        simp [isEndOf, List.countP_cons, EVENT_START, EVENT_END]
      · rw [if_neg hc, if_neg hc]
        simp
    | succ j' =>
      have hbl : (if jb.Start < jb.End then
          [⟨jb.Start, EVENT_START, n⟩, ⟨jb.End, EVENT_END, n⟩]
          else ([] : List Ev)).countP (isEndOf (n + (j' + 1))) = 0 := by
        by_cases hc : jb.Start < jb.End
        · rw [if_pos hc]
          simp [isEndOf, List.countP_cons, EVENT_START, EVENT_END]
        · rw [if_neg hc]
          simp
      rw [hbl]
      have := ih (n + 1) j' job (by simpa using hj)
      rw [show n + (j' + 1) = n + 1 + j' by omega]
      omega

lemma length_collectRaw :
    ∀ (l : List Job) (n : Nat),
      (collectRaw n l).length =
        2 * (l.filter (fun j => j.Start < j.End)).length := by
  intro l
  induction l with
  | nil => intro n; simp [collectRaw]
  | cons j rest ih =>
    intro n
    rw [collectRaw, List.length_append, ih (n + 1), List.filter_cons]
    by_cases hc : j.Start < j.End
    · rw [if_pos hc]
      simp [hc]
      omega
    · rw [if_neg hc]
      simp [hc]

lemma collectEvents_perm (events : List Ev) (jobs : List Job) :
    (CollectEvents events jobs).Perm (events ++ collectRaw 0 jobs) :=
  List.perm_insertionSort evLE _

lemma collectEvents_sorted (events : List Ev) (jobs : List Job) :
    List.Sorted evLE (CollectEvents events jobs) :=
  List.sorted_insertionSort evLE _

lemma oi_nil (e : Ev) : List.orderedInsert evLE e [] = [e] := rfl

lemma oi_pos {e x : Ev} (h : evLE e x) (l : List Ev) :
    List.orderedInsert evLE e (x :: l) = e :: x :: l := by
  rw [List.orderedInsert, if_pos h]

lemma oi_neg {e x : Ev} (h : ¬ evLE e x) (l : List Ev) :
    List.orderedInsert evLE e (x :: l) = x :: List.orderedInsert evLE e l := by
  rw [List.orderedInsert, if_neg h]

lemma normGo_cons (jobs : List Job) (prev : Option NEv) (e : Ev)
    (rest : List Ev) :
    normGo jobs prev (e :: rest) =
      normStep jobs prev e :: normGo jobs (some (normStep jobs prev e)) rest :=
  rfl

lemma normStep_timestamp (jobs : List Job) (prev : Option NEv) (e : Ev) :
    (normStep jobs prev e).Timestamp = e.Timestamp := by
  rw [normStep.eq_def]
  split
  · rcases prev with _ | p <;> rfl
  · split
    · rfl
    · rfl

lemma njobsAt_SSEE (jobs : List Job) (ta tb tc td ia ib ic i4 t : Nat)
    (h1 : ta ≤ t) (h2 : tb ≤ t) (h3 : ¬ tc ≤ t) (h4 : ¬ td ≤ t) :
    NJobsAt (NormEvents jobs
      [⟨ta, EVENT_START, ia⟩, ⟨tb, EVENT_START, ib⟩,
       ⟨tc, EVENT_END, ic⟩, ⟨td, EVENT_END, i4⟩]) t = 2 := by
  have d1 : decide (ta ≤ t) = true := decide_eq_true h1
  have d2 : decide (tb ≤ t) = true := decide_eq_true h2
  have d3 : decide (tc ≤ t) = false := decide_eq_false h3
  have d4 : decide (td ≤ t) = false := decide_eq_false h4
  simp only [NormEvents, normGo_cons, normGo, NJobsAt, List.filter_cons,
    List.filter_nil, normStep_timestamp, d1, d2, d3, d4, if_true, if_false]
  simp only [List.getLast?_cons_cons, List.getLast?_singleton]
  rfl

lemma njobs_le_one_SESE (jobs : List Job) (ta tb tc td ia ib ic i4 : Nat) :
    ∀ ne ∈ NormEvents jobs
      [⟨ta, EVENT_START, ia⟩, ⟨tb, EVENT_END, ib⟩,
       ⟨tc, EVENT_START, ic⟩, ⟨td, EVENT_END, i4⟩], ne.NJobs ≤ 1 := by
  intro ne hne
  simp only [NormEvents, normGo_cons, normGo, List.mem_cons,
    List.not_mem_nil, or_false] at hne
  rcases hne with rfl | rfl | rfl | rfl <;>
    norm_num [normStep, EVENT_START, EVENT_END]

/-- C6: the sweep emits one `START` and one `END` event exactly for each
job whose start is strictly before its end (and nothing for the others),
sorted by `(timestamp, event kind)` with `START (3) < END (4)` at equal
timestamps; after the forward pass the running `NJobs` count of two
overlapping jobs is 2 at every time from the later start up to (not
including) the earlier end, and for two jobs with disjoint closed
intervals `NJobs` never exceeds 1. -/
theorem c6_timeline :
    (∀ (jobs : List Job), (CollectEvents [] jobs).length =
      2 * (jobs.filter (fun j => j.Start < j.End)).length) ∧
    (∀ (jobs : List Job) (j : Nat) (job : Job), jobs.get? j = some job →
      (CollectEvents [] jobs).countP (isStartOf j) =
        (if job.Start < job.End then 1 else 0) ∧
      (CollectEvents [] jobs).countP (isEndOf j) =
        (if job.Start < job.End then 1 else 0)) ∧
    (∀ (events : List Ev) (jobs : List Job),
      List.Sorted evLE (CollectEvents events jobs)) ∧
    EVENT_START < EVENT_END ∧
    (∀ j1 j2 : Job, j1.Start < j1.End → j2.Start < j2.End →
      max j1.Start j2.Start < min j1.End j2.End →
      ∀ t : Nat, max j1.Start j2.Start ≤ t → t < min j1.End j2.End →
        NJobsAt (NormEvents [j1, j2] (CollectEvents [] [j1, j2])) t = 2) ∧
    (∀ j1 j2 : Job, j1.Start < j1.End → j2.Start < j2.End →
      (j1.End < j2.Start ∨ j2.End < j1.Start) →
      ∀ ne ∈ NormEvents [j1, j2] (CollectEvents [] [j1, j2]),
        ne.NJobs ≤ 1) := by
  refine ⟨?_, ?_, collectEvents_sorted,
    by norm_num [EVENT_START, EVENT_END], ?_, ?_⟩
  · intro jobs
    rw [(collectEvents_perm [] jobs).length_eq, List.nil_append,
      length_collectRaw]
  · intro jobs j job hj
    constructor
    · rw [(collectEvents_perm [] jobs).countP_eq, List.nil_append]
      simpa using countP_collectRaw_start jobs 0 j job hj
    · rw [(collectEvents_perm [] jobs).countP_eq, List.nil_append]
      simpa using countP_collectRaw_end jobs 0 j job hj
  · intro j1 j2 h1 h2 hov t ht1 ht2
    have hraw : collectRaw 0 [j1, j2] =
        [⟨j1.Start, EVENT_START, 0⟩, ⟨j1.End, EVENT_END, 0⟩,
         ⟨j2.Start, EVENT_START, 1⟩, ⟨j2.End, EVENT_END, 1⟩] := by
      rw [collectRaw, if_pos h1, collectRaw, if_pos h2, collectRaw]
      rfl
    rw [CollectEvents, List.nil_append, hraw]
    have c1 : evLE ⟨j2.Start, EVENT_START, 1⟩ ⟨j2.End, EVENT_END, 1⟩ := by
      simp only [evLE, EVENT_START, EVENT_END]
      omega
    have c2 : ¬ evLE ⟨j1.End, EVENT_END, 0⟩ ⟨j2.Start, EVENT_START, 1⟩ := by
      simp only [evLE, EVENT_START, EVENT_END]
      omega
    rcases le_or_lt j1.Start j2.Start with hs | hs <;>
      rcases le_or_lt j1.End j2.End with he | he
    · have c3 : evLE ⟨j1.End, EVENT_END, 0⟩ ⟨j2.End, EVENT_END, 1⟩ := by
        simp only [evLE, EVENT_START, EVENT_END]
        omega
      have c4 : evLE ⟨j1.Start, EVENT_START, 0⟩ ⟨j2.Start, EVENT_START, 1⟩ := by
        simp only [evLE, EVENT_START, EVENT_END]
        omega
      have hsort : List.insertionSort evLE
          [⟨j1.Start, EVENT_START, 0⟩, ⟨j1.End, EVENT_END, 0⟩,
           ⟨j2.Start, EVENT_START, 1⟩, ⟨j2.End, EVENT_END, 1⟩] =
          [⟨j1.Start, EVENT_START, 0⟩, ⟨j2.Start, EVENT_START, 1⟩,
           ⟨j1.End, EVENT_END, 0⟩, ⟨j2.End, EVENT_END, 1⟩] := by
        simp only [List.insertionSort]
        rw [oi_nil, oi_pos c1, oi_neg c2, oi_pos c3, oi_pos c4]
      rw [hsort]
      exact njobsAt_SSEE [j1, j2] _ _ _ _ 0 1 0 1 t
        (by omega) (by omega) (by omega) (by omega)
    · have c3 : ¬ evLE ⟨j1.End, EVENT_END, 0⟩ ⟨j2.End, EVENT_END, 1⟩ := by
        simp only [evLE, EVENT_START, EVENT_END]
        omega
      have c4 : evLE ⟨j1.Start, EVENT_START, 0⟩ ⟨j2.Start, EVENT_START, 1⟩ := by
        simp only [evLE, EVENT_START, EVENT_END]
        omega
      have hsort : List.insertionSort evLE
          [⟨j1.Start, EVENT_START, 0⟩, ⟨j1.End, EVENT_END, 0⟩,
           ⟨j2.Start, EVENT_START, 1⟩, ⟨j2.End, EVENT_END, 1⟩] =
          [⟨j1.Start, EVENT_START, 0⟩, ⟨j2.Start, EVENT_START, 1⟩,
           ⟨j2.End, EVENT_END, 1⟩, ⟨j1.End, EVENT_END, 0⟩] := by
        simp only [List.insertionSort]
        rw [oi_nil, oi_pos c1, oi_neg c2, oi_neg c3, oi_nil, oi_pos c4]
      rw [hsort]
      exact njobsAt_SSEE [j1, j2] _ _ _ _ 0 1 1 0 t
        (by omega) (by omega) (by omega) (by omega)
    · have c3 : evLE ⟨j1.End, EVENT_END, 0⟩ ⟨j2.End, EVENT_END, 1⟩ := by
        simp only [evLE, EVENT_START, EVENT_END]
        omega
      have c4 : ¬ evLE ⟨j1.Start, EVENT_START, 0⟩ ⟨j2.Start, EVENT_START, 1⟩ := by
        simp only [evLE, EVENT_START, EVENT_END]
        omega
      have c5 : evLE ⟨j1.Start, EVENT_START, 0⟩ ⟨j1.End, EVENT_END, 0⟩ := by
        simp only [evLE, EVENT_START, EVENT_END]
        omega
      have hsort : List.insertionSort evLE
          [⟨j1.Start, EVENT_START, 0⟩, ⟨j1.End, EVENT_END, 0⟩,
           ⟨j2.Start, EVENT_START, 1⟩, ⟨j2.End, EVENT_END, 1⟩] =
          [⟨j2.Start, EVENT_START, 1⟩, ⟨j1.Start, EVENT_START, 0⟩,
           ⟨j1.End, EVENT_END, 0⟩, ⟨j2.End, EVENT_END, 1⟩] := by
        simp only [List.insertionSort]
        rw [oi_nil, oi_pos c1, oi_neg c2, oi_pos c3, oi_neg c4, oi_pos c5]
      rw [hsort]
      exact njobsAt_SSEE [j1, j2] _ _ _ _ 1 0 0 1 t
        (by omega) (by omega) (by omega) (by omega)
    · have c3 : ¬ evLE ⟨j1.End, EVENT_END, 0⟩ ⟨j2.End, EVENT_END, 1⟩ := by
        simp only [evLE, EVENT_START, EVENT_END]
        omega
      have c4 : ¬ evLE ⟨j1.Start, EVENT_START, 0⟩ ⟨j2.Start, EVENT_START, 1⟩ := by
        simp only [evLE, EVENT_START, EVENT_END]
        omega
      have c5 : evLE ⟨j1.Start, EVENT_START, 0⟩ ⟨j2.End, EVENT_END, 1⟩ := by
        simp only [evLE, EVENT_START, EVENT_END]
        omega
      have hsort : List.insertionSort evLE
          [⟨j1.Start, EVENT_START, 0⟩, ⟨j1.End, EVENT_END, 0⟩,
           ⟨j2.Start, EVENT_START, 1⟩, ⟨j2.End, EVENT_END, 1⟩] =
          [⟨j2.Start, EVENT_START, 1⟩, ⟨j1.Start, EVENT_START, 0⟩,
           ⟨j2.End, EVENT_END, 1⟩, ⟨j1.End, EVENT_END, 0⟩] := by
        simp only [List.insertionSort]
        rw [oi_nil, oi_pos c1, oi_neg c2, oi_neg c3, oi_nil, oi_neg c4,
          oi_pos c5]
      rw [hsort]
      exact njobsAt_SSEE [j1, j2] _ _ _ _ 1 0 1 0 t
        (by omega) (by omega) (by omega) (by omega)
  · intro j1 j2 h1 h2 hdis
    have hraw : collectRaw 0 [j1, j2] =
        [⟨j1.Start, EVENT_START, 0⟩, ⟨j1.End, EVENT_END, 0⟩,
         ⟨j2.Start, EVENT_START, 1⟩, ⟨j2.End, EVENT_END, 1⟩] := by
      rw [collectRaw, if_pos h1, collectRaw, if_pos h2, collectRaw]
      rfl
    rw [CollectEvents, List.nil_append, hraw]
    have c1 : evLE ⟨j2.Start, EVENT_START, 1⟩ ⟨j2.End, EVENT_END, 1⟩ := by
      simp only [evLE, EVENT_START, EVENT_END]
      omega
    rcases hdis with hd | hd
    · have c2 : evLE ⟨j1.End, EVENT_END, 0⟩ ⟨j2.Start, EVENT_START, 1⟩ := by
        simp only [evLE, EVENT_START, EVENT_END]
        omega
      have c3 : evLE ⟨j1.Start, EVENT_START, 0⟩ ⟨j1.End, EVENT_END, 0⟩ := by
        simp only [evLE, EVENT_START, EVENT_END]
        omega
      have hsort : List.insertionSort evLE
          [⟨j1.Start, EVENT_START, 0⟩, ⟨j1.End, EVENT_END, 0⟩,
           ⟨j2.Start, EVENT_START, 1⟩, ⟨j2.End, EVENT_END, 1⟩] =
          [⟨j1.Start, EVENT_START, 0⟩, ⟨j1.End, EVENT_END, 0⟩,
           ⟨j2.Start, EVENT_START, 1⟩, ⟨j2.End, EVENT_END, 1⟩] := by
        simp only [List.insertionSort]
        rw [oi_nil, oi_pos c1, oi_pos c2, oi_pos c3]
      rw [hsort]
      exact njobs_le_one_SESE [j1, j2] _ _ _ _ 0 0 1 1
    · have c2 : ¬ evLE ⟨j1.End, EVENT_END, 0⟩ ⟨j2.Start, EVENT_START, 1⟩ := by
        simp only [evLE, EVENT_START, EVENT_END]
        omega
      have c3 : ¬ evLE ⟨j1.End, EVENT_END, 0⟩ ⟨j2.End, EVENT_END, 1⟩ := by
        simp only [evLE, EVENT_START, EVENT_END]
        omega
      have c4 : ¬ evLE ⟨j1.Start, EVENT_START, 0⟩ ⟨j2.Start, EVENT_START, 1⟩ := by
        simp only [evLE, EVENT_START, EVENT_END]
        omega
      have c5 : ¬ evLE ⟨j1.Start, EVENT_START, 0⟩ ⟨j2.End, EVENT_END, 1⟩ := by
        simp only [evLE, EVENT_START, EVENT_END]
        omega
      have c6 : evLE ⟨j1.Start, EVENT_START, 0⟩ ⟨j1.End, EVENT_END, 0⟩ := by
        simp only [evLE, EVENT_START, EVENT_END]
        omega
      have hsort : List.insertionSort evLE
          [⟨j1.Start, EVENT_START, 0⟩, ⟨j1.End, EVENT_END, 0⟩,
           ⟨j2.Start, EVENT_START, 1⟩, ⟨j2.End, EVENT_END, 1⟩] =
          [⟨j2.Start, EVENT_START, 1⟩, ⟨j2.End, EVENT_END, 1⟩,
           ⟨j1.Start, EVENT_START, 0⟩, ⟨j1.End, EVENT_END, 0⟩] := by
        simp only [List.insertionSort]
        rw [oi_nil, oi_pos c1, oi_neg c2, oi_neg c3, oi_nil, oi_neg c4,
          oi_neg c5, oi_pos c6]
      rw [hsort]
      exact njobs_le_one_SESE [j1, j2] _ _ _ _ 1 1 0 0

/-- Witness for C6's overlap clause: job `[0, 10)` and job `[2, 8)` show a
running count of 2 at time 5. -/
theorem c6_witness :
    NJobsAt (NormEvents [jobA, jobB] (CollectEvents [] [jobA, jobB])) 5 = 2 :=
  c6_timeline.2.2.2.2.1 jobA jobB (by decide) (by decide) (by decide) 5
    (by decide) (by decide)

/-! ## Lemmas: the forward-pass active-set invariant (C9) -/

lemma normStep_start_spec (jobs : List Job) (prev : Option NEv) (e : Ev)
    (h : e.Event = EVENT_START) :
    (normStep jobs prev e).Indices = indicesOf prev ++ [e.Index] ∧
    (normStep jobs prev e).NJobs = njobsOf prev + 1 := by
  rcases prev with _ | p <;>
    simp [normStep, h, indicesOf, njobsOf]

lemma normStep_end_spec (jobs : List Job) (prev : Option NEv) (e : Ev)
    (h : e.Event = EVENT_END) :
    (normStep jobs prev e).Indices = (indicesOf prev).erase e.Index ∧
    (normStep jobs prev e).NJobs = njobsOf prev - 1 := by
  rcases prev with _ | p <;>
    simp [normStep, h, indicesOf, njobsOf, EVENT_START, EVENT_END]

lemma countP_le_of_prefix {α : Type} (p : α → Bool) {l₁ l₂ : List α}
    (h : l₁ <+: l₂) : l₁.countP p ≤ l₂.countP p :=
  h.sublist.countP_le p

lemma normGo_invariant (jobs : List Job) :
    ∀ (evs : List Ev) (prev : Option NEv),
      (∀ e ∈ evs, e.Event = EVENT_START ∨ e.Event = EVENT_END) →
      njobsOf prev = ((indicesOf prev).length : Int) →
      (indicesOf prev).Nodup →
      (∀ j ∈ indicesOf prev, evs.countP (isStartOf j) = 0) →
      (∀ j : Nat, evs.countP (isStartOf j) ≤ 1) →
      (∀ j : Nat, evs.countP (isEndOf j) ≤ 1) →
      (∀ j : Nat, j ∉ indicesOf prev → ∀ p, p <+: evs →
        p.countP (isEndOf j) ≤ p.countP (isStartOf j)) →
      ∀ ne ∈ normGo jobs prev evs,
        ne.NJobs = (ne.Indices.length : Int) ∧ ne.Indices.Nodup := by
  intro evs
  induction evs with
  | nil =>
    intro prev _ _ _ _ _ _ _ ne hne
    simp [normGo] at hne
  | cons e rest ih =>
    intro prev hkinds hlen hnodup hstarted hs1 he1 hbal ne hne
    rw [normGo_cons] at hne
    rcases hkinds e (List.mem_cons_self e rest) with hev | hev
    · obtain ⟨hind, hnj⟩ := normStep_start_spec jobs prev e hev
      have hpe : isStartOf e.Index e = true := by
        simp [isStartOf, hev]
      have hnotin : e.Index ∉ indicesOf prev := by
        intro hmem
        have h0 := hstarted e.Index hmem
        rw [List.countP_cons_of_pos _ rest hpe] at h0
        omega
      have hreststart : rest.countP (isStartOf e.Index) = 0 := by
        have := hs1 e.Index
        rw [List.countP_cons_of_pos _ rest hpe] at this
        omega
      have hlen1 : (normStep jobs prev e).NJobs =
          (((normStep jobs prev e).Indices.length : Nat) : Int) := by
        rw [hind, hnj, hlen]
        simp
      have hnodup1 : (normStep jobs prev e).Indices.Nodup := by
        rw [hind, ← List.concat_eq_append]
        exact List.Nodup.concat hnotin hnodup
      rcases List.mem_cons.mp hne with rfl | hne'
      · exact ⟨hlen1, hnodup1⟩
      · refine ih (some (normStep jobs prev e))
          (fun e' he' => hkinds e' (List.mem_cons_of_mem _ he'))
          ?_ ?_ ?_ ?_ ?_ ?_ ne hne'
        · exact hlen1
        · exact hnodup1
        · intro j hj
          have hj' : j ∈ indicesOf prev ++ [e.Index] := by
            rw [← hind]
            exact hj
          rcases List.mem_append.mp hj' with hj'' | hj''
          · have h0 := hstarted j hj''
            have hle : rest.countP (isStartOf j) ≤
                (e :: rest).countP (isStartOf j) :=
              (List.sublist_cons_self e rest).countP_le _
            omega
          · have : j = e.Index := by simpa using hj''
            subst this
            exact hreststart
        · intro j
          exact le_trans ((List.sublist_cons_self e rest).countP_le _) (hs1 j)
        · intro j
          exact le_trans ((List.sublist_cons_self e rest).countP_le _) (he1 j)
        · intro j hj p hp
          have hjprev : j ∉ indicesOf prev ∧ j ≠ e.Index := by
            constructor
            · intro hc
              exact hj (by
                show j ∈ (normStep jobs prev e).Indices
                rw [hind]
                exact List.mem_append_left _ hc)
            · intro hc
              exact hj (by
                show j ∈ (normStep jobs prev e).Indices
                rw [hind, hc]
                exact List.mem_append_right _ (List.mem_singleton.mpr rfl))
          have hpre : (e :: p) <+: (e :: rest) := by
            rcases hp with ⟨q, rfl⟩
            exact ⟨q, rfl⟩
          have hb := hbal j hjprev.1 (e :: p) hpre
          have hne1 : isEndOf j e = false := by
            simp [isEndOf, hev, EVENT_START, EVENT_END]
          have hne2 : isStartOf j e = false := by
            have hx : e.Index ≠ j := fun hc => hjprev.2 hc.symm
            simp [isStartOf, hev, hx]
          rw [List.countP_cons_of_neg _ p (by simp [hne1]),
            List.countP_cons_of_neg _ p (by simp [hne2])] at hb
          exact hb
    · obtain ⟨hind, hnj⟩ := normStep_end_spec jobs prev e hev
      have hpe : isEndOf e.Index e = true := by
        simp [isEndOf, hev]
      have hin : e.Index ∈ indicesOf prev := by
        by_contra hnot
        have hb := hbal e.Index hnot [e] ⟨rest, rfl⟩
        have h1 : ([e].countP (isEndOf e.Index)) = 1 := by
          rw [List.countP_cons_of_pos _ [] hpe]
          simp
        have h2 : ([e].countP (isStartOf e.Index)) = 0 := by
          rw [List.countP_cons_of_neg _ []
            (by simp [isStartOf, hev, EVENT_START, EVENT_END]),
            List.countP_nil]
        omega
      have hrestend : rest.countP (isEndOf e.Index) = 0 := by
        have := he1 e.Index
        rw [List.countP_cons_of_pos _ rest hpe] at this
        omega
      have hlenpos : 1 ≤ (indicesOf prev).length :=
        List.length_pos.mpr (List.ne_nil_of_mem hin)
      have hlen1 : (normStep jobs prev e).NJobs =
          (((normStep jobs prev e).Indices.length : Nat) : Int) := by
        rw [hind, hnj, hlen, List.length_erase_of_mem hin]
        omega
      have hnodup1 : (normStep jobs prev e).Indices.Nodup := by
        rw [hind]
        exact hnodup.erase e.Index
      rcases List.mem_cons.mp hne with rfl | hne'
      · exact ⟨hlen1, hnodup1⟩
      · refine ih (some (normStep jobs prev e))
          (fun e' he' => hkinds e' (List.mem_cons_of_mem _ he'))
          ?_ ?_ ?_ ?_ ?_ ?_ ne hne'
        · exact hlen1
        · exact hnodup1
        · intro j hj
          have hj' : j ∈ (indicesOf prev).erase e.Index := by
            rw [← hind]
            exact hj
          have hjprev : j ∈ indicesOf prev := List.mem_of_mem_erase hj'
          have h0 := hstarted j hjprev
          have hle : rest.countP (isStartOf j) ≤
              (e :: rest).countP (isStartOf j) :=
            (List.sublist_cons_self e rest).countP_le _
          omega
        · intro j
          exact le_trans ((List.sublist_cons_self e rest).countP_le _) (hs1 j)
        · intro j
          exact le_trans ((List.sublist_cons_self e rest).countP_le _) (he1 j)
        · intro j hj p hp
          by_cases hje : j = e.Index
          · have h0 : rest.countP (isEndOf j) = 0 := by
              rw [hje]
              exact hrestend
            have hple := countP_le_of_prefix (isEndOf j) hp
            omega
          · have hjprev : j ∉ indicesOf prev := by
              intro hc
              exact hj (by
                show j ∈ (normStep jobs prev e).Indices
                rw [hind]
                exact (List.mem_erase_of_ne hje).mpr hc)
            have hpre : (e :: p) <+: (e :: rest) := by
              rcases hp with ⟨q, rfl⟩
              exact ⟨q, rfl⟩
            have hb := hbal j hjprev (e :: p) hpre
            have hne1 : isEndOf j e = false := by
              have hx : e.Index ≠ j := fun hc => hje hc.symm
              simp [isEndOf, hev, hx]
            have hne2 : isStartOf j e = false := by
              simp [isStartOf, hev, EVENT_START, EVENT_END]
            rw [List.countP_cons_of_neg _ p (by simp [hne1]),
              List.countP_cons_of_neg _ p (by simp [hne2])] at hb
            exact hb

lemma collectRaw_end_has_start :
    ∀ (l : List Job) (n : Nat), ∀ e ∈ collectRaw n l, e.Event = EVENT_END →
      ∃ s, (⟨s, EVENT_START, e.Index⟩ : Ev) ∈ collectRaw n l ∧
        s < e.Timestamp := by
  intro l
  induction l with
  | nil => intro n e he; simp [collectRaw] at he
  | cons j rest ih =>
    intro n e he hev
    rw [collectRaw] at he
    rcases List.mem_append.mp he with h | h
    · by_cases hc : j.Start < j.End
      · rw [if_pos hc] at h
        simp only [List.mem_cons, List.not_mem_nil, or_false] at h
        rcases h with rfl | rfl
        · simp [EVENT_START, EVENT_END] at hev
        · refine ⟨j.Start, ?_, hc⟩
          rw [collectRaw, if_pos hc]
          exact List.mem_append_left _ (List.mem_cons_self _ _)
      · rw [if_neg hc] at h
        cases h
    · obtain ⟨s, hs, hlt⟩ := ih (n + 1) e h hev
      refine ⟨s, ?_, hlt⟩
      rw [collectRaw]
      exact List.mem_append_right _ hs

lemma countP_start_le_one (jobs : List Job) (j : Nat) :
    (collectRaw 0 jobs).countP (isStartOf j) ≤ 1 := by
  rcases hj : jobs.get? j with _ | job
  · have h0 : (collectRaw 0 jobs).countP (isStartOf j) = 0 := by
      rw [List.countP_eq_zero]
      intro e he hc
      have hlt := mem_collectRaw_index_lt jobs 0 e he
      have hlen := List.get?_eq_none.mp hj
      simp only [isStartOf, Bool.and_eq_true, beq_iff_eq] at hc
      omega
    omega
  · have := countP_collectRaw_start jobs 0 j job hj
    rw [Nat.zero_add] at this
    rw [this]
    split <;> omega

lemma countP_end_le_one (jobs : List Job) (j : Nat) :
    (collectRaw 0 jobs).countP (isEndOf j) ≤ 1 := by
  rcases hj : jobs.get? j with _ | job
  · have h0 : (collectRaw 0 jobs).countP (isEndOf j) = 0 := by
      rw [List.countP_eq_zero]
      intro e he hc
      have hlt := mem_collectRaw_index_lt jobs 0 e he
      have hlen := List.get?_eq_none.mp hj
      simp only [isEndOf, Bool.and_eq_true, beq_iff_eq] at hc
      omega
    omega
  · have := countP_collectRaw_end jobs 0 j job hj
    rw [Nat.zero_add] at this
    rw [this]
    split <;> omega

lemma collectEvents_balanced (jobs : List Job) (j : Nat) (p : List Ev)
    (hp : p <+: CollectEvents [] jobs) :
    p.countP (isEndOf j) ≤ p.countP (isStartOf j) := by
  rcases Nat.eq_zero_or_pos (p.countP (isEndOf j)) with h0 | hpos
  · omega
  · obtain ⟨e, hep, hej⟩ := List.countP_pos_iff.mp hpos
    simp only [isEndOf, Bool.and_eq_true, beq_iff_eq] at hej
    have hemem : e ∈ CollectEvents [] jobs := hp.subset hep
    have heraw : e ∈ collectRaw 0 jobs := by
      have := (collectEvents_perm [] jobs).mem_iff.mp hemem
      simpa using this
    obtain ⟨s, hsraw, hslt⟩ :=
      collectRaw_end_has_start jobs 0 e heraw hej.1
    have hsmem : (⟨s, EVENT_START, e.Index⟩ : Ev) ∈ CollectEvents [] jobs := by
      rw [(collectEvents_perm [] jobs).mem_iff]
      simpa using hsraw
    obtain ⟨q, hq⟩ := hp
    have hsp : (⟨s, EVENT_START, e.Index⟩ : Ev) ∈ p := by
      rw [← hq] at hsmem
      rcases List.mem_append.mp hsmem with h | h
      · exact h
      · exfalso
        have hsorted := collectEvents_sorted [] jobs
        rw [← hq] at hsorted
        have hpair := (List.pairwise_append.mp hsorted).2.2
        have hle := hpair e hep _ h
        simp only [evLE, hej.1, EVENT_START, EVENT_END] at hle
        omega
    have h1 : 0 < p.countP (isStartOf j) :=
      List.countP_pos_iff.mpr
        ⟨⟨s, EVENT_START, e.Index⟩, hsp, by simp [isStartOf, hej.2]⟩
    have h2 : p.countP (isEndOf j) ≤
        (CollectEvents [] jobs).countP (isEndOf j) :=
      countP_le_of_prefix _ ⟨q, hq⟩
    have h3 : (CollectEvents [] jobs).countP (isEndOf j) ≤ 1 := by
      rw [(collectEvents_perm [] jobs).countP_eq, List.nil_append]
      exact countP_end_le_one jobs j
    omega

lemma collectEvents_head_start (jobs : List Job) :
    ∀ e, (CollectEvents [] jobs).head? = some e → e.Event = EVENT_START := by
  intro e he
  rcases hevs : CollectEvents [] jobs with _ | ⟨a, rest⟩
  · rw [hevs] at he
    cases he
  · rw [hevs] at he
    have ha : a = e := by simpa using he
    subst ha
    have hmem : a ∈ CollectEvents [] jobs := by
      rw [hevs]
      exact List.mem_cons_self _ _
    have haraw : a ∈ collectRaw 0 jobs := by
      have := (collectEvents_perm [] jobs).mem_iff.mp hmem
      simpa using this
    rcases mem_collectRaw_kind jobs 0 a haraw with h | h
    · exact h
    · exfalso
      obtain ⟨s, hsraw, hslt⟩ := collectRaw_end_has_start jobs 0 a haraw h
      have hsmem : (⟨s, EVENT_START, a.Index⟩ : Ev) ∈ CollectEvents [] jobs := by
        rw [(collectEvents_perm [] jobs).mem_iff]
        simpa using hsraw
      rw [hevs] at hsmem
      rcases List.mem_cons.mp hsmem with hx | hx
      · have : a.Event = EVENT_START := by
          rw [← hx]
        rw [this] at h
        simp [EVENT_START, EVENT_END] at h
      · have hsorted := collectEvents_sorted [] jobs
        rw [hevs] at hsorted
        have hle := (List.sorted_cons.mp hsorted).1 _ hx
        simp only [evLE, h, EVENT_START, EVENT_END] at hle
        omega

/-- C9: the first sorted event of a collected event list is always a
`START` event, and after the forward pass every normalized event's
running `NJobs` equals the length of its active-index list `Indices`
(hence is non-negative). -/
theorem c9_events_invariant (jobs : List Job) :
    (∀ e, (CollectEvents [] jobs).head? = some e → e.Event = EVENT_START) ∧
    (∀ ne ∈ NormEvents jobs (CollectEvents [] jobs),
      ne.NJobs = (ne.Indices.length : Int) ∧ 0 ≤ ne.NJobs) := by
  refine ⟨collectEvents_head_start jobs, ?_⟩
  intro ne hne
  have hkinds : ∀ e ∈ CollectEvents [] jobs,
      e.Event = EVENT_START ∨ e.Event = EVENT_END := by
    intro e he
    have : e ∈ collectRaw 0 jobs := by
      have := (collectEvents_perm [] jobs).mem_iff.mp he
      simpa using this
    exact mem_collectRaw_kind jobs 0 e this
  have h := normGo_invariant jobs (CollectEvents [] jobs) none hkinds
    (by simp [njobsOf, indicesOf])
    (by simp [indicesOf])
    (by simp [indicesOf])
    (fun j => by
      rw [(collectEvents_perm [] jobs).countP_eq, List.nil_append]
      exact countP_start_le_one jobs j)
    (fun j => by
      rw [(collectEvents_perm [] jobs).countP_eq, List.nil_append]
      exact countP_end_le_one jobs j)
    (fun j _ p hp => collectEvents_balanced jobs j p hp)
    ne hne
  refine ⟨h.1, ?_⟩
  rw [h.1]
  positivity

/-- Witness for C9 at the one-job list: the first normalized event
satisfies the `NJobs = |Indices|` invariant. -/
theorem c9_witness :
    (normStep [jobA] none ⟨0, EVENT_START, 0⟩).NJobs =
      (((normStep [jobA] none ⟨0, EVENT_START, 0⟩).Indices.length : Nat) :
        Int) :=
  ((c9_events_invariant [jobA]).2 (normStep [jobA] none ⟨0, EVENT_START, 0⟩)
    (by
      have h : CollectEvents [] [jobA] =
          [⟨0, EVENT_START, 0⟩, ⟨10, EVENT_END, 0⟩] := by decide
      rw [NormEvents, h, normGo_cons]
      exact List.mem_cons_self _ _)).1

end Slurm
